import Mathlib

/-!
# EmmyLuaCodeStyle: identifier word splitting and diagnostic projection

A shallow embedding of

* `src/CodeService/src/Spell/IdentifyParser.cpp` (`IdentifyParser::Parse`, `Lex`,
  `GetCurrentChar`, `PushWords`), and
* `src/CodeFormatServer/src/Service/CodeFormatService.cpp` (the projection loop of
  `CodeFormatService::Diagnose`, `MakeSpellActions`, `IsCodeFormatDiagnostic` and
  `IsSpellDiagnostic`),

followed by theorems about them.

Conventions.  A `std::string` / `std::string_view` is a list of bytes, each byte a natural
number that is read modulo 256 (the `unsigned char` conversion of `GetCurrentChar`).  The
character classes of `<cctype>` are those of the "C" locale, and `char` is signed 8 bit.
The `std::size_t` scan position is a natural number: it never exceeds the length of the
identifier, so it cannot wrap, and the one decrement in `Lex` happens at least two
positions after the start of the scan (`LexExit`, `LexLoop_spec`).  The two `while (true)`
loops are written with a fuel argument and return `none` when the fuel runs out; `Lex` and
`Parse` supply the fuel and are proved to return always (`Lex_cases`, `ParseLoop_total`).
`none` also stands for the `std::out_of_range` that `std::string_view::substr` throws when
its position is past the end.  In `CodeFormatService` two strings are equal when their
lists of bytes are, and the suggestion ranker is a function `GetSuggests` given as an
argument; `MakeSpellActions` also returns the words with which it calls the ranker.
-/

namespace EmmyLua

/-! ## `<cctype>` in the "C" locale -/

/-- The constant `EOZ` of `IdentifyParser.cpp`. -/
def EOZ : Int := -1

/-- The value of `std::numeric_limits<char>::max()` where `char` is signed 8 bit. -/
def CHAR_MAX : Int := 127

/-- The function `std::isdigit`: the characters `0` to `9`. -/
def isdigit (ch : Int) : Bool := decide (48 ≤ ch) && decide (ch ≤ 57)

/-- The function `std::isupper` in the "C" locale: the characters `A` to `Z`. -/
def isupper (ch : Int) : Bool := decide (65 ≤ ch) && decide (ch ≤ 90)

/-- The function `std::islower` in the "C" locale: the characters `a` to `z`. -/
def islower (ch : Int) : Bool := decide (97 ≤ ch) && decide (ch ≤ 122)

/-- The function `std::isalnum` in the "C" locale: a letter or a digit. -/
def isalnum (ch : Int) : Bool := isdigit ch || isupper ch || islower ch

/-- The function `std::tolower` in the "C" locale. -/
def tolower (ch : Int) : Int := if isupper ch then ch + 32 else ch

/-- The function `std::toupper` in the "C" locale. -/
def toupper (ch : Int) : Int := if islower ch then ch - 32 else ch

/-! ## `IdentifyParser` -/

/-- Modelled from the spec: the struct `IdentifyParser::WordRange` of `IdentifyParser.h`
(not among the sources): start offset and count, in bytes. -/
structure WordRange where
  Start : Nat
  Count : Nat
  deriving DecidableEq, Repr

/-- Modelled from the spec: the struct `IdentifyParser::Word` of `IdentifyParser.h`: a range
and the lowercased text of that range. -/
structure Word where
  Range : WordRange
  Item : List Nat
  deriving DecidableEq, Repr

/-- Modelled from the spec: the enum `IdentifyParser::IdentifyType` of `IdentifyParser.h`,
the result of one `Lex` call; `End` is the enumerator that the `default` case of `Parse`
handles. -/
inductive IdentifyType where
  | Unknown
  | Unicode
  | Ascii
  | LowerEnd
  | Ignore
  | End
  deriving DecidableEq, Repr

/-- The local enum `ParseState` of `IdentifyParser::Lex`. -/
inductive ParseState where
  | Unknown
  | Number
  | LowerCase
  | UpperCase
  deriving DecidableEq, Repr

/-- Modelled from the spec: the fields of the class `IdentifyParser`, declared in
`IdentifyParser.h` and named as `IdentifyParser.cpp` uses them. -/
structure IdentifyParser where
  _source : List Nat
  _currentIndex : Nat
  _words : List Word
  deriving DecidableEq, Repr

/-- The constructor `IdentifyParser::IdentifyParser(source)`. -/
def IdentifyParser.new (source : List Nat) : IdentifyParser :=
  { _source := source, _currentIndex := 0, _words := [] }

/-- The method `IdentifyParser::GetCurrentChar`: the byte at the scan position as an
`unsigned char`, or `EOZ` past the end. -/
def IdentifyParser.GetCurrentChar (p : IdentifyParser) : Int :=
  if p._currentIndex < p._source.length then
    ((p._source.getD p._currentIndex 0 % 256 : Nat) : Int)
  else EOZ

/-- The call `std::string_view::substr(pos, count)`: throws (here `none`) when `pos` is
past the end, otherwise the at most `count` bytes from `pos` on. -/
def substr (s : List Nat) (pos count : Nat) : Option (List Nat) :=
  if pos > s.length then none else some ((s.drop pos).take count)

/-- The body of the `for` loop of `PushWords`: `word[i] = std::tolower(wordView[i])`, on
a byte. -/
def tolowerByte (b : Nat) : Nat := (tolower ((b % 256 : Nat) : Int)).toNat

/-- The method `IdentifyParser::PushWords`. -/
def IdentifyParser.PushWords (p : IdentifyParser) (range : WordRange) :
    Option IdentifyParser :=
  match substr p._source range.Start range.Count with
  | none => none
  | some wordView =>
    let word := wordView.map tolowerByte
    some { p with _words := p._words ++ [{ Range := range, Item := word }] }

/-- The `while (true)` loop of `IdentifyParser::Lex`, one iteration per unit of fuel.
`start` is the local `start` of `Lex`, `state` the local `state`. -/
def LexLoop : Nat → IdentifyParser → ParseState → Nat → Option (IdentifyType × IdentifyParser)
  | 0, _, _, _ => none
  | fuel + 1, p, state, start =>
    let ch := p.GetCurrentChar
    if ch = EOZ then
      if state = ParseState.LowerCase then some (IdentifyType.LowerEnd, p)
      else some (IdentifyType.End, p)
    else if ch = 95 then some (IdentifyType.Ignore, p)
    else if ch > CHAR_MAX then some (IdentifyType.Unicode, p)
    else if !isalnum ch then some (IdentifyType.Unknown, p)
    else
      let next : IdentifyParser := { p with _currentIndex := p._currentIndex + 1 }
      match state with
      | ParseState.Unknown =>
        let state1 :=
          if isdigit ch then ParseState.Number
          else if isupper ch then ParseState.UpperCase
          else if islower ch then ParseState.LowerCase
          else ParseState.Unknown
        LexLoop fuel next state1 start
      | ParseState.Number =>
        if isdigit ch then LexLoop fuel next ParseState.Number start
        else some (IdentifyType.Ignore, p)
      | ParseState.LowerCase =>
        if islower ch then LexLoop fuel next ParseState.LowerCase start
        else some (IdentifyType.Ascii, p)
      | ParseState.UpperCase =>
        if isupper ch then LexLoop fuel next ParseState.UpperCase start
        else if islower ch then
          if p._currentIndex - start = 1 then LexLoop fuel next ParseState.LowerCase start
          else some (IdentifyType.Ignore, { p with _currentIndex := p._currentIndex - 1 })
        else some (IdentifyType.Ignore, p)

/-- The method `IdentifyParser::Lex`.  Every iteration that does not return moves the scan
position forward and needs a byte below it, so the bytes left plus one bound the number of
iterations. -/
def IdentifyParser.Lex (p : IdentifyParser) : Option (IdentifyType × IdentifyParser) :=
  LexLoop (p._source.length - p._currentIndex + 1) p ParseState.Unknown p._currentIndex

/-- The outcome of one iteration of the loop of `Parse`: `break` (go round again, with the
new value of the local `start`) or `return`. -/
inductive ParseStepResult where
  | again (p : IdentifyParser) (start : Nat)
  | done (p : IdentifyParser)
  deriving DecidableEq, Repr

/-- The body of the `while (true)` loop of `IdentifyParser::Parse`: one `Lex` call and the
`switch` on its result. -/
def ParseStep (p : IdentifyParser) (start : Nat) : Option ParseStepResult :=
  match p.Lex with
  | none => none
  | some (ty, p1) =>
    match ty with
    | IdentifyType.Unknown | IdentifyType.Unicode =>
      some (ParseStepResult.done { p1 with _words := [] })
    | IdentifyType.Ascii =>
      match p1.PushWords { Start := start, Count := p1._currentIndex - start } with
      | none => none
      | some p2 => some (ParseStepResult.again p2 p2._currentIndex)
    | IdentifyType.LowerEnd =>
      match p1.PushWords { Start := start, Count := p1._source.length - start } with
      | none => none
      | some p2 => some (ParseStepResult.done p2)
    | IdentifyType.Ignore =>
      some (ParseStepResult.again { p1 with _currentIndex := p1._currentIndex + 1 }
        (p1._currentIndex + 1))
    | IdentifyType.End => some (ParseStepResult.done p1)

/-- The `while (true)` loop of `IdentifyParser::Parse`, one iteration (one `Lex` call) per
unit of fuel. -/
def ParseLoop : Nat → IdentifyParser → Nat → Option IdentifyParser
  | 0, _, _ => none
  | fuel + 1, p, start =>
    match ParseStep p start with
    | none => none
    | some (ParseStepResult.done p1) => some p1
    | some (ParseStepResult.again p1 start1) => ParseLoop fuel p1 start1

/-- The method `IdentifyParser::Parse`: the local `start` is `0`, the fuel is the length of
the identifier plus one. -/
def IdentifyParser.Parse (p : IdentifyParser) : Option IdentifyParser :=
  ParseLoop (p._source.length + 1) p 0

/-- The method `IdentifyParser::GetWords`. -/
def IdentifyParser.GetWords (p : IdentifyParser) : List Word := p._words

/-- The word splitter as its callers use it: construct a parser on the identifier, `Parse`,
then `GetWords`. -/
def split (identifier : List Nat) : Option (List Word) :=
  (IdentifyParser.new identifier).Parse.map IdentifyParser.GetWords

/-- The bytes of an ASCII string literal. -/
def bytes (s : String) : List Nat := s.toList.map Char.toNat

/-! ## The projection loop of `CodeFormatService::Diagnose` -/

/-- Modelled from the spec: the enum `DiagnosisType`, declared outside the sources; the
kinds `Indent`, `Blank`, `Align`, `Spell`, and `Other` for every further enumerator. -/
inductive DiagnosisType where
  | Indent
  | Blank
  | Align
  | Spell
  | Other (code : Nat)
  deriving DecidableEq, Repr

/-- Modelled from the spec: a line and character pair of a diagnosis record. -/
structure LuaDiagnosisPosition where
  Line : Nat
  Character : Nat
  deriving DecidableEq, Repr

/-- Modelled from the spec: the range of a diagnosis record. -/
structure LuaDiagnosisRange where
  Start : LuaDiagnosisPosition
  End : LuaDiagnosisPosition
  deriving DecidableEq, Repr

/-- Modelled from the spec: a diagnosis record, with the fields that `Diagnose` reads. -/
structure LuaDiagnosisInfo where
  Message : List Nat
  Range : LuaDiagnosisRange
  type : DiagnosisType
  Data : List Nat
  deriving DecidableEq, Repr

namespace vscode

/-- Modelled from the spec: the class `vscode::Position`. -/
structure Position where
  line : Nat
  character : Nat
  deriving DecidableEq, Repr

/-- Modelled from the spec: the class `vscode::Range`. -/
structure Range where
  start : Position
  «end» : Position
  deriving DecidableEq, Repr

/-- Modelled from the spec: the enum `vscode::DiagnosticSeverity`. -/
inductive DiagnosticSeverity where
  | Error
  | Warning
  | Information
  | Hint
  deriving DecidableEq, Repr

/-- Modelled from the spec: the class `vscode::Diagnostic`, with the fields that
`CodeFormatService` reads and writes. -/
structure Diagnostic where
  range : Range
  message : List Nat
  severity : DiagnosticSeverity
  data : List Nat
  deriving DecidableEq, Repr

end vscode

/-- The body of the `for` loop of `CodeFormatService::Diagnose`: the diagnostic that one
iteration appends for `diagnosisInfo`.  A `std::string` is a list of bytes, and `data` is
empty in the diagnostic that `emplace_back()` constructs. -/
def DiagnoseBody (diagnosisInfo : LuaDiagnosisInfo) : vscode.Diagnostic :=
  let diagnosis : vscode.Diagnostic :=
    { message := diagnosisInfo.Message
      range :=
        { start := { line := diagnosisInfo.Range.Start.Line,
                     character := diagnosisInfo.Range.Start.Character }
          «end» := { line := diagnosisInfo.Range.End.Line,
                     character := diagnosisInfo.Range.End.Character } }
      severity := vscode.DiagnosticSeverity.Warning
      data := [] }
  match diagnosisInfo.type with
  | DiagnosisType.Indent | DiagnosisType.Blank | DiagnosisType.Align =>
    { diagnosis with data := bytes "emmylua.format" }
  | DiagnosisType.Spell =>
    { diagnosis with
      severity := vscode.DiagnosticSeverity.Information
      data := bytes "emmylua.spell|" ++ diagnosisInfo.Data }
  | DiagnosisType.Other _ => diagnosis

/-- The projection loop of `CodeFormatService::Diagnose` (lines 31 to 68), on the diagnosis
records that `ctx.GetDiagnosisInfos()` returns: each iteration appends one diagnostic to
`diagnostics`. -/
def Diagnose (diagnosisInfos : List LuaDiagnosisInfo) : List vscode.Diagnostic :=
  diagnosisInfos.foldl (fun diagnostics diagnosisInfo =>
    diagnostics ++ [DiagnoseBody diagnosisInfo]) []

/-! ## `CodeFormatService`: the routing predicates and `MakeSpellActions` -/

/-- The call `std::string::starts_with(sv)`. -/
def starts_with : List Nat → List Nat → Bool
  | _, [] => true
  | [], _ :: _ => false
  | a :: s, b :: sv => decide (a = b) && starts_with s sv

/-- The method `CodeFormatService::IsCodeFormatDiagnostic`. -/
def IsCodeFormatDiagnostic (diagnostic : vscode.Diagnostic) : Bool :=
  decide (diagnostic.data = bytes "emmylua.format")

/-- The method `CodeFormatService::IsSpellDiagnostic`. -/
def IsSpellDiagnostic (diagnostic : vscode.Diagnostic) : Bool :=
  starts_with diagnostic.data (bytes "emmylua.spell")

/-- Modelled from the spec: a ranked candidate that the suggestion ranker returns; only the
field `Term` is read. -/
structure SuggestItem where
  Term : List Nat
  deriving DecidableEq, Repr

namespace vscode

/-- Modelled from the spec: an element of the argument array of a command: a string, or the
serialization of a range, which is kept symbolic. -/
inductive Argument where
  | text (s : List Nat)
  | range (r : Range)
  deriving DecidableEq, Repr

/-- Modelled from the spec: the method `vscode::Range::Serialize`. -/
def Range.Serialize (r : Range) : Argument := Argument.range r

/-- Modelled from the spec: the enum `vscode::CodeActionKind`. -/
inductive CodeActionKind where
  | Empty
  | QuickFix
  | Refactor
  deriving DecidableEq, Repr

/-- Modelled from the spec: the class `vscode::Command`. -/
structure Command where
  title : List Nat
  command : List Nat
  arguments : List Argument
  deriving DecidableEq, Repr

/-- Modelled from the spec: the class `vscode::CodeAction`, with the fields that
`MakeSpellActions` writes. -/
structure CodeAction where
  title : List Nat
  command : Command
  kind : CodeActionKind
  deriving DecidableEq, Repr

/-- Modelled from the spec: the class `vscode::CodeActionResult`. -/
structure CodeActionResult where
  actions : List CodeAction
  deriving DecidableEq, Repr

end vscode

/-- The call `std::string::find_first_of` with a one-character set: the position of the
first occurrence of `c`, or `none` for `npos`. -/
def find_first_of : List Nat → Nat → Option Nat
  | [], _ => none
  | b :: s, c => if b = c then some 0 else (find_first_of s c).map (fun pos => pos + 1)

/-- The assignment `term[0] = std::toupper(term[0])`, on a byte. -/
def toupperByte (b : Nat) : Nat := (toupper ((b % 256 : Nat) : Int)).toNat

/-- The body of the loop over `suggests` in `CodeFormatService::MakeSpellActions`. -/
def MakeSpellActionsBody (upperFirst : Bool) (diagnostic : vscode.Diagnostic) (uri : List Nat)
    (result : vscode.CodeActionResult) (suggest : SuggestItem) : vscode.CodeActionResult :=
  if !suggest.Term.isEmpty then
    let term :=
      if upperFirst then
        match suggest.Term with
        | [] => []
        | c :: rest => toupperByte c :: rest
      else suggest.Term
    let action : vscode.CodeAction :=
      { title := term
        command :=
          { title := term
            command := bytes "emmylua.spell.correct"
            arguments :=
              [vscode.Argument.text uri, diagnostic.range.Serialize, vscode.Argument.text term] }
        kind := vscode.CodeActionKind.QuickFix }
    { result with actions := result.actions ++ [action] }
  else result

/-- The method `CodeFormatService::MakeSpellActions`.  `GetSuggests` stands for
`_spellChecker->GetSuggests`; the second component of the value lists the words with which
`GetSuggests` is called, in order. -/
def MakeSpellActions (GetSuggests : List Nat → List SuggestItem)
    (result : vscode.CodeActionResult) (diagnostic : vscode.Diagnostic) (uri : List Nat) :
    vscode.CodeActionResult × List (List Nat) :=
  match find_first_of diagnostic.data 124 with
  | none => (result, [])
  | some pos =>
    let originText := diagnostic.data.drop (pos + 1)
    if originText.isEmpty then (result, [])
    else
      let letterWord := originText.map tolowerByte
      let upperFirst := isupper ((originText.headD 0 % 256 : Nat) : Int)
      let suggests := GetSuggests letterWord
      (suggests.foldl (MakeSpellActionsBody upperFirst diagnostic uri) result, [letterWord])

/-! ## Predicates used in the statements and proofs -/

/-- The value that `GetCurrentChar` returns at scan position `i` of the source `src`. -/
def charAt (src : List Nat) (i : Nat) : Int :=
  if i < src.length then ((src.getD i 0 % 256 : Nat) : Int) else EOZ

/-- All characters of `src` at the positions from `a` up to but not including `b` satisfy the
character class `P`. -/
def AllIn (P : Int → Bool) (src : List Nat) (a b : Nat) : Prop :=
  ∀ j, a ≤ j → j < b → P (charAt src j) = true

/-- The slice of `src` from `a` up to `b` is a word as `Lex` scans one in state `LowerCase`:
one or more lowercase letters, or one uppercase letter and then one or more lowercase
letters. -/
def WordShape (src : List Nat) (a b : Nat) : Prop :=
  (a < b ∧ AllIn islower src a b) ∨
  (a + 2 ≤ b ∧ isupper (charAt src a) = true ∧ AllIn islower src (a + 1) b)

/-- What the local `state` of `Lex` says about the characters scanned since `start`, at scan
position `i`. -/
def StateInv (src : List Nat) (start i : Nat) : ParseState → Prop
  | ParseState.Unknown => i = start
  | ParseState.Number => start < i ∧ AllIn isdigit src start i
  | ParseState.LowerCase => WordShape src start i
  | ParseState.UpperCase => start < i ∧ AllIn isupper src start i

/-- The ways in which the loop of `Lex` returns: at scan position `i` in state `st` it
returns `ty` and leaves the scan position at `i1`. -/
def LexExit (src : List Nat) (start : Nat) (st : ParseState) (i : Nat)
    (ty : IdentifyType) (i1 : Nat) : Prop :=
  (ty = IdentifyType.LowerEnd ∧ src.length ≤ i ∧ st = ParseState.LowerCase ∧ i1 = i) ∨
  (ty = IdentifyType.End ∧ src.length ≤ i ∧ st ≠ ParseState.LowerCase ∧ i1 = i) ∨
  (ty = IdentifyType.Ignore ∧ charAt src i = 95 ∧ i1 = i) ∨
  (ty = IdentifyType.Unicode ∧ i < src.length ∧ 127 < charAt src i ∧ i1 = i) ∨
  (ty = IdentifyType.Unknown ∧ i < src.length ∧ charAt src i ≠ 95 ∧ charAt src i ≤ 127 ∧
    isalnum (charAt src i) = false ∧ i1 = i) ∨
  (ty = IdentifyType.Ignore ∧ st = ParseState.Number ∧ isalnum (charAt src i) = true ∧
    isdigit (charAt src i) = false ∧ i1 = i) ∨
  (ty = IdentifyType.Ascii ∧ st = ParseState.LowerCase ∧ isalnum (charAt src i) = true ∧
    islower (charAt src i) = false ∧ i1 = i) ∨
  (ty = IdentifyType.Ignore ∧ st = ParseState.UpperCase ∧ islower (charAt src i) = true ∧
    start + 2 ≤ i ∧ i1 = i - 1) ∨
  (ty = IdentifyType.Ignore ∧ st = ParseState.UpperCase ∧ isdigit (charAt src i) = true ∧ i1 = i)

/-- A character that does not abort the parse: alphanumeric or an underscore. -/
def isGood (ch : Int) : Bool := isalnum ch || decide (ch = 95)

/-- What each result of `Lex`, called at scan position `s`, says about the scan position
`i1` that it leaves. -/
def LexPost (src : List Nat) (s : Nat) : IdentifyType → Nat → Prop
  | IdentifyType.Unknown, i1 => i1 < src.length ∧ isGood (charAt src i1) = false
  | IdentifyType.Unicode, i1 => i1 < src.length ∧ isGood (charAt src i1) = false
  | IdentifyType.Ascii, i1 =>
    i1 < src.length ∧ WordShape src s i1 ∧ isalnum (charAt src i1) = true ∧
      islower (charAt src i1) = false
  | IdentifyType.LowerEnd, i1 => i1 = src.length ∧ WordShape src s i1
  | IdentifyType.Ignore, i1 => i1 < src.length ∧ isGood (charAt src i1) = true
  | IdentifyType.End, i1 => src.length ≤ i1

/-- The word that `PushWords` builds for the range from `s` up to `e` of `src`. -/
def mkWord (src : List Nat) (s e : Nat) : Word :=
  { Range := { Start := s, Count := e - s },
    Item := ((src.drop s).take (e - s)).map tolowerByte }

/-- A run of lowercase letters. -/
def isLowerRun (w : List Nat) : Bool := w.all (fun b => islower ((b % 256 : Nat) : Int))

/-- A capitalized word: one uppercase letter followed by one or more lowercase letters. -/
def isCapWord : List Nat → Bool
  | c :: d :: l => isupper ((c % 256 : Nat) : Int) && isLowerRun (d :: l)
  | _ => false

/-- The sub-words expected for a sequence of words laid out one after the other from the
offset `off`: each with the range of its word and the lowercased text of its word. -/
def layout : Nat → List (List Nat) → List Word
  | _, [] => []
  | off, w :: ws =>
    { Range := { Start := off, Count := w.length }, Item := w.map tolowerByte } ::
      layout (off + w.length) ws

/-- A word: a non-empty run of lowercase letters, or a capitalized word. -/
def isWord (w : List Nat) : Bool := (!w.isEmpty && isLowerRun w) || isCapWord w

/-- The term of the action built for a suggestion: the term of the suggestion, with its
first byte passed through `toupper` when `upperFirst` is set. -/
def spellTerm (upperFirst : Bool) (term : List Nat) : List Nat :=
  if upperFirst then toupperByte (term.headD 0) :: term.tail else term

/-- A run of digits. -/
def isDigitRun (w : List Nat) : Bool := w.all (fun b => isdigit ((b % 256 : Nat) : Int))

/-! ## The loops of `Lex` and `Parse` step by step -/

/-- The outcome of one iteration of the loop of `Lex`: go round again with the new scan
position and `state`, or `return` a result. -/
inductive LexIterResult where
  | next (p : IdentifyParser) (state : ParseState)
  | ret (ty : IdentifyType) (p : IdentifyParser)
  deriving DecidableEq, Repr

/-- One iteration of the `while (true)` loop of `IdentifyParser::Lex`, the body of `LexLoop`
(`LexLoop_iter`). -/
def LexIter (p : IdentifyParser) (state : ParseState) (start : Nat) : LexIterResult :=
  let ch := p.GetCurrentChar
  if ch = EOZ then
    if state = ParseState.LowerCase then LexIterResult.ret IdentifyType.LowerEnd p
    else LexIterResult.ret IdentifyType.End p
  else if ch = 95 then LexIterResult.ret IdentifyType.Ignore p
  else if ch > CHAR_MAX then LexIterResult.ret IdentifyType.Unicode p
  else if !isalnum ch then LexIterResult.ret IdentifyType.Unknown p
  else
    let next : IdentifyParser := { p with _currentIndex := p._currentIndex + 1 }
    match state with
    | ParseState.Unknown =>
      let state1 :=
        if isdigit ch then ParseState.Number
        else if isupper ch then ParseState.UpperCase
        else if islower ch then ParseState.LowerCase
        else ParseState.Unknown
      LexIterResult.next next state1
    | ParseState.Number =>
      if isdigit ch then LexIterResult.next next ParseState.Number
      else LexIterResult.ret IdentifyType.Ignore p
    | ParseState.LowerCase =>
      if islower ch then LexIterResult.next next ParseState.LowerCase
      else LexIterResult.ret IdentifyType.Ascii p
    | ParseState.UpperCase =>
      if isupper ch then LexIterResult.next next ParseState.UpperCase
      else if islower ch then
        if p._currentIndex - start = 1 then LexIterResult.next next ParseState.LowerCase
        else LexIterResult.ret IdentifyType.Ignore
          { p with _currentIndex := p._currentIndex - 1 }
      else LexIterResult.ret IdentifyType.Ignore p

/-- The states of the loop of `Lex` that a call of `Lex` on the parser `p0` goes through:
the parser and the local `state` at the head of each iteration. -/
inductive LexReach (p0 : IdentifyParser) : IdentifyParser → ParseState → Prop where
  | entry : LexReach p0 p0 ParseState.Unknown
  | iter (q q1 : IdentifyParser) (st st1 : ParseState) :
      LexReach p0 q st → LexIter q st p0._currentIndex = LexIterResult.next q1 st1 →
      LexReach p0 q1 st1

/-- The states of the loop of `Parse` that `Parse` on `identifier` goes through: the parser
and the local `start` at the head of each iteration. -/
inductive ParseReach (identifier : List Nat) : IdentifyParser → Nat → Prop where
  | entry : ParseReach identifier (IdentifyParser.new identifier) 0
  | iter (p p1 : IdentifyParser) (start start1 : Nat) :
      ParseReach identifier p start →
      ParseStep p start = some (ParseStepResult.again p1 start1) →
      ParseReach identifier p1 start1

/-! ## The word splitter -/

theorem GetCurrentChar_eq (p : IdentifyParser) :
    p.GetCurrentChar = charAt p._source p._currentIndex := rfl

theorem charAt_eoz_iff (src : List Nat) (i : Nat) : charAt src i = EOZ ↔ src.length ≤ i := by
  unfold charAt EOZ
  split
  · constructor
    · intro h; omega
    · intro h; omega
  · constructor
    · intro _; omega
    · intro _; rfl

theorem charAt_lt (src : List Nat) (i : Nat) (h : i < src.length) :
    0 ≤ charAt src i ∧ charAt src i < 256 := by
  unfold charAt
  rw [if_pos h]
  omega

theorem AllIn_succ {P : Int → Bool} {src : List Nat} {a b : Nat}
    (h : AllIn P src a b) (hb : P (charAt src b) = true) : AllIn P src a (b + 1) := by
  intro j h1 h2
  rcases Nat.lt_succ_iff_lt_or_eq.mp h2 with h3 | h3
  · exact h j h1 h3
  · rw [h3]; exact hb

theorem WordShape_succ {src : List Nat} {a b : Nat}
    (h : WordShape src a b) (hb : islower (charAt src b) = true) : WordShape src a (b + 1) := by
  rcases h with ⟨h1, h2⟩ | ⟨h1, h2, h3⟩
  · exact Or.inl ⟨by omega, AllIn_succ h2 hb⟩
  · exact Or.inr ⟨by omega, h2, AllIn_succ h3 hb⟩

theorem LexLoop_spec (fuel : Nat) : ∀ (p : IdentifyParser) (state : ParseState) (start : Nat),
    StateInv p._source start p._currentIndex state →
    p._source.length - p._currentIndex < fuel →
    ∃ ty i1, LexLoop fuel p state start = some (ty, { p with _currentIndex := i1 }) ∧
      ∃ st i, StateInv p._source start i st ∧ LexExit p._source start st i ty i1 := by
  induction fuel with
  | zero => intro p state start _ h; omega
  | succ n ih =>
    intro p state start hinv hfuel
    obtain ⟨src, i, ws⟩ := p
    simp only at hinv hfuel ⊢
    rw [LexLoop]
    simp only [GetCurrentChar_eq]
    by_cases h1 : charAt src i = EOZ
    · have hlen := (charAt_eoz_iff src i).mp h1
      simp only [h1, if_true]
      by_cases h2 : state = ParseState.LowerCase
      · exact ⟨_, i, by simp [h2], state, i, hinv, Or.inl ⟨rfl, hlen, h2, rfl⟩⟩
      · exact ⟨_, i, by simp [h2], state, i, hinv, Or.inr (Or.inl ⟨rfl, hlen, h2, rfl⟩)⟩
    · have hlen : i < src.length := by
        by_contra hc; exact h1 ((charAt_eoz_iff src i).mpr (by omega))
      simp only [h1, if_false]
      by_cases h2 : charAt src i = 95
      · exact ⟨_, i, by simp [h2], state, i, hinv, Or.inr (Or.inr (Or.inl ⟨rfl, h2, rfl⟩))⟩
      · simp only [h2, if_false]
        by_cases h3 : charAt src i > CHAR_MAX
        · exact ⟨_, i, by simp [h3], state, i, hinv,
            Or.inr (Or.inr (Or.inr (Or.inl ⟨rfl, hlen, h3, rfl⟩)))⟩
        · simp only [h3, if_false]
          have h3b : charAt src i ≤ 127 := by unfold CHAR_MAX at h3; omega
          by_cases h4 : isalnum (charAt src i) = true
          · simp only [h4, Bool.not_true, Bool.false_eq_true, if_false]
            have hf : src.length - (i + 1) < n := by omega
            cases state with
            | Unknown =>
              simp only [StateInv] at hinv
              subst hinv
              simp only
              by_cases hd : isdigit (charAt src i) = true
              · simp only [hd, if_true]
                exact ih ⟨src, i + 1, ws⟩ ParseState.Number i
                  ⟨Nat.lt_succ_self i, AllIn_succ (fun j h5 h6 => by omega) hd⟩ hf
              · simp only [hd, if_false]
                by_cases hu : isupper (charAt src i) = true
                · simp only [hu, if_true]
                  exact ih ⟨src, i + 1, ws⟩ ParseState.UpperCase i
                    ⟨Nat.lt_succ_self i, AllIn_succ (fun j h5 h6 => by omega) hu⟩ hf
                · simp only [hu, if_false]
                  by_cases hl : islower (charAt src i) = true
                  · simp only [hl, if_true]
                    exact ih ⟨src, i + 1, ws⟩ ParseState.LowerCase i
                      (Or.inl ⟨Nat.lt_succ_self i, AllIn_succ (fun j h5 h6 => by omega) hl⟩) hf
                  · exfalso
                    simp only [isalnum, Bool.or_eq_true] at h4
                    tauto
            | Number =>
              simp only
              by_cases hd : isdigit (charAt src i) = true
              · simp only [hd, if_true]
                exact ih ⟨src, i + 1, ws⟩ ParseState.Number start
                  ⟨Nat.lt_succ_of_lt hinv.1, AllIn_succ hinv.2 hd⟩ hf
              · have hd2 : isdigit (charAt src i) = false := by simpa using hd
                exact ⟨_, i, by simp [hd2], ParseState.Number, i, hinv,
                  Or.inr (Or.inr (Or.inr (Or.inr (Or.inr (Or.inl ⟨rfl, rfl, h4, hd2, rfl⟩)))))⟩
            | LowerCase =>
              simp only
              by_cases hl : islower (charAt src i) = true
              · simp only [hl, if_true]
                exact ih ⟨src, i + 1, ws⟩ ParseState.LowerCase start (WordShape_succ hinv hl) hf
              · have hl2 : islower (charAt src i) = false := by simpa using hl
                exact ⟨_, i, by simp [hl2], ParseState.LowerCase, i, hinv,
                  Or.inr (Or.inr (Or.inr (Or.inr (Or.inr (Or.inr (Or.inl
                    ⟨rfl, rfl, h4, hl2, rfl⟩))))))⟩
            | UpperCase =>
              simp only
              by_cases hu : isupper (charAt src i) = true
              · simp only [hu, if_true]
                exact ih ⟨src, i + 1, ws⟩ ParseState.UpperCase start
                  ⟨Nat.lt_succ_of_lt hinv.1, AllIn_succ hinv.2 hu⟩ hf
              · simp only [hu, if_false]
                by_cases hl : islower (charAt src i) = true
                · simp only [hl, if_true]
                  by_cases h1c : i - start = 1
                  · simp only [h1c, if_true]
                    have hi : i = start + 1 := by omega
                    refine ih ⟨src, i + 1, ws⟩ ParseState.LowerCase start (Or.inr ⟨?_, ?_, ?_⟩) hf
                    · simp only; omega
                    · exact hinv.2 start (Nat.le_refl _) hinv.1
                    · intro j h5 h6
                      have hj : j = i := by simp only at h6; omega
                      rw [hj]; exact hl
                  · simp only [h1c, if_false]
                    exact ⟨_, i - 1, rfl, ParseState.UpperCase, i, hinv,
                      Or.inr (Or.inr (Or.inr (Or.inr (Or.inr (Or.inr (Or.inr (Or.inl
                        ⟨rfl, rfl, hl, by have := hinv.1; omega, rfl⟩)))))))⟩
                · have hl2 : islower (charAt src i) = false := by simpa using hl
                  have hd : isdigit (charAt src i) = true := by
                    simp only [isalnum, Bool.or_eq_true] at h4
                    tauto
                  exact ⟨_, i, by simp [hl2], ParseState.UpperCase, i, hinv,
                    Or.inr (Or.inr (Or.inr (Or.inr (Or.inr (Or.inr (Or.inr (Or.inr
                      ⟨rfl, rfl, hd, rfl⟩)))))))⟩
          · have h4b : isalnum (charAt src i) = false := by simpa using h4
            exact ⟨_, i, by simp [h4b], state, i, hinv,
              Or.inr (Or.inr (Or.inr (Or.inr (Or.inl ⟨rfl, hlen, h2, h3b, h4b, rfl⟩))))⟩

theorem AllIn_mono {P Q : Int → Bool} {src : List Nat} {a b : Nat}
    (hPQ : ∀ c, P c = true → Q c = true) (h : AllIn P src a b) : AllIn Q src a b :=
  fun j h1 h2 => hPQ _ (h j h1 h2)

theorem isGood_of_isdigit (c : Int) (h : isdigit c = true) : isGood c = true := by
  simp [isGood, isalnum, h]

theorem isGood_of_isupper (c : Int) (h : isupper c = true) : isGood c = true := by
  simp [isGood, isalnum, h]

theorem isGood_of_islower (c : Int) (h : islower c = true) : isGood c = true := by
  simp [isGood, isalnum, h]

theorem isGood_of_isalnum (c : Int) (h : isalnum c = true) : isGood c = true := by
  simp [isGood, h]

theorem WordShape_good {src : List Nat} {a b : Nat} (h : WordShape src a b) :
    AllIn isGood src a b := by
  rcases h with ⟨_, h2⟩ | ⟨_, h2, h3⟩
  · exact AllIn_mono isGood_of_islower h2
  · intro j h4 h5
    rcases Nat.eq_or_lt_of_le h4 with h6 | h6
    · rw [← h6]; exact isGood_of_isupper _ h2
    · exact isGood_of_islower _ (h3 j h6 h5)

theorem StateInv_good {src : List Nat} {s i : Nat} {st : ParseState}
    (h : StateInv src s i st) : AllIn isGood src s i := by
  cases st with
  | Unknown =>
    simp only [StateInv] at h
    intro j h1 h2; omega
  | Number => exact AllIn_mono isGood_of_isdigit h.2
  | LowerCase => exact WordShape_good h
  | UpperCase => exact AllIn_mono isGood_of_isupper h.2

theorem StateInv_le {src : List Nat} {s i : Nat} {st : ParseState}
    (h : StateInv src s i st) : s ≤ i := by
  cases st with
  | Unknown => simp only [StateInv] at h; omega
  | Number => exact Nat.le_of_lt h.1
  | LowerCase =>
    rcases h with ⟨h1, _⟩ | ⟨h1, _⟩ <;> omega
  | UpperCase => exact Nat.le_of_lt h.1

theorem AllIn_le_length {P : Int → Bool} (hP : P EOZ = false) {src : List Nat} {a b : Nat}
    (h : AllIn P src a b) (hab : a < b) : b ≤ src.length := by
  by_contra hc
  have h1 := h (b - 1) (by omega) (by omega)
  have h2 : charAt src (b - 1) = EOZ := (charAt_eoz_iff src (b - 1)).mpr (by omega)
  rw [h2, hP] at h1
  exact Bool.false_ne_true h1

theorem WordShape_le_length {src : List Nat} {a b : Nat} (h : WordShape src a b) :
    b ≤ src.length := by
  rcases h with ⟨h1, h2⟩ | ⟨h1, _, h3⟩
  · exact AllIn_le_length (by decide) h2 h1
  · exact AllIn_le_length (by decide) h3 (by omega)

theorem WordShape_lt {src : List Nat} {a b : Nat} (h : WordShape src a b) : a < b := by
  rcases h with ⟨h1, _⟩ | ⟨h1, _⟩ <;> omega

theorem Lex_cases (p : IdentifyParser) :
    ∃ ty i1, p.Lex = some (ty, { p with _currentIndex := i1 }) ∧ p._currentIndex ≤ i1 ∧
      AllIn isGood p._source p._currentIndex i1 ∧ LexPost p._source p._currentIndex ty i1 := by
  obtain ⟨ty, i1, hlex, st, i, hinv, hexit⟩ :=
    LexLoop_spec (p._source.length - p._currentIndex + 1) p ParseState.Unknown p._currentIndex
      rfl (Nat.lt_succ_self _)
  refine ⟨ty, i1, hlex, ?_⟩
  have hle := StateInv_le hinv
  have hgood := StateInv_good hinv
  rcases hexit with ⟨rfl, h1, rfl, rfl⟩ | ⟨rfl, h1, _, rfl⟩ | ⟨rfl, h1, rfl⟩ | ⟨rfl, h1, h2, rfl⟩ |
    ⟨rfl, h1, h2, h3, h4, rfl⟩ | ⟨rfl, rfl, h1, h2, rfl⟩ | ⟨rfl, rfl, h1, h2, rfl⟩ |
    ⟨rfl, rfl, h1, h2, rfl⟩ | ⟨rfl, rfl, h1, rfl⟩
  · exact ⟨hle, hgood, Nat.le_antisymm (WordShape_le_length hinv) h1, hinv⟩
  · exact ⟨hle, hgood, h1⟩
  · have hlt : i1 < p._source.length := by
      by_contra hc
      have := (charAt_eoz_iff p._source i1).mpr (by omega)
      rw [h1] at this; exact absurd this (by decide)
    exact ⟨hle, hgood, hlt, by simp [isGood, h1]⟩
  · refine ⟨hle, hgood, h1, ?_⟩
    simp only [isGood, isalnum, isdigit, isupper, islower, Bool.or_eq_false_iff,
      Bool.and_eq_false_iff, decide_eq_false_iff_not]
    omega
  · exact ⟨hle, hgood, h1, by simp [isGood, h4, h2]⟩
  · have hlt : i1 < p._source.length := by
      by_contra hc
      have := (charAt_eoz_iff p._source i1).mpr (by omega)
      rw [this] at h1; exact absurd h1 (by decide)
    exact ⟨hle, hgood, hlt, isGood_of_isalnum _ h1⟩
  · have hlt : i1 < p._source.length := by
      by_contra hc
      have := (charAt_eoz_iff p._source i1).mpr (by omega)
      rw [this] at h1; exact absurd h1 (by decide)
    exact ⟨hle, hgood, hlt, hinv, h1, h2⟩
  · have hlt : i < p._source.length := by
      by_contra hc
      have := (charAt_eoz_iff p._source i).mpr (by omega)
      rw [this] at h1; exact absurd h1 (by decide)
    refine ⟨by omega, fun j h5 h6 => hgood j h5 (by omega), by omega, ?_⟩
    exact hgood (i - 1) (by omega) (by omega)
  · have hlt : i1 < p._source.length := by
      by_contra hc
      have := (charAt_eoz_iff p._source i1).mpr (by omega)
      rw [this] at h1; exact absurd h1 (by decide)
    exact ⟨hle, hgood, hlt, isGood_of_isdigit _ h1⟩

theorem ParseStep_cases (p : IdentifyParser) (start : Nat) (hstart : start ≤ p._source.length) :
    ∃ i1, p._currentIndex ≤ i1 ∧ AllIn isGood p._source p._currentIndex i1 ∧
      ((ParseStep p start = some (ParseStepResult.done
            { p with _currentIndex := i1, _words := [] }) ∧
          i1 < p._source.length ∧ isGood (charAt p._source i1) = false) ∨
       (ParseStep p start = some (ParseStepResult.again
            { p with _currentIndex := i1,
                     _words := p._words ++ [mkWord p._source start i1] } i1) ∧
          i1 < p._source.length ∧ WordShape p._source p._currentIndex i1 ∧
          isalnum (charAt p._source i1) = true ∧ islower (charAt p._source i1) = false) ∨
       (ParseStep p start = some (ParseStepResult.done
            { p with _currentIndex := i1,
                     _words := p._words ++ [mkWord p._source start i1] }) ∧
          i1 = p._source.length ∧ WordShape p._source p._currentIndex i1) ∨
       (ParseStep p start = some (ParseStepResult.again
            { p with _currentIndex := i1 + 1 } (i1 + 1)) ∧
          i1 < p._source.length ∧ isGood (charAt p._source i1) = true) ∨
       (ParseStep p start = some (ParseStepResult.done { p with _currentIndex := i1 }) ∧
          p._source.length ≤ i1)) := by
  obtain ⟨ty, i1, hlex, hle, hgood, hpost⟩ := Lex_cases p
  refine ⟨i1, hle, hgood, ?_⟩
  have hsub : ¬ (start > p._source.length) := by omega
  cases ty with
  | Unknown =>
    exact Or.inl ⟨by simp [ParseStep, hlex], hpost.1, hpost.2⟩
  | Unicode =>
    exact Or.inl ⟨by simp [ParseStep, hlex], hpost.1, hpost.2⟩
  | Ascii =>
    exact Or.inr (Or.inl ⟨by simp [ParseStep, hlex, IdentifyParser.PushWords, substr, hsub,
      mkWord], hpost⟩)
  | LowerEnd =>
    refine Or.inr (Or.inr (Or.inl ⟨?_, hpost⟩))
    simp [ParseStep, hlex, IdentifyParser.PushWords, substr, hsub, mkWord, hpost.1]
  | Ignore =>
    exact Or.inr (Or.inr (Or.inr (Or.inl ⟨by simp [ParseStep, hlex], hpost⟩)))
  | End =>
    exact Or.inr (Or.inr (Or.inr (Or.inr ⟨by simp [ParseStep, hlex], hpost⟩)))

/-- Every `break` of the loop body moves the scan position forward, keeps it inside the
identifier, leaves the source alone and sets `start` to the scan position. -/
theorem ParseStep_continue (p : IdentifyParser) (start : Nat) (p1 : IdentifyParser) (s1 : Nat)
    (h : ParseStep p start = some (ParseStepResult.again p1 s1)) :
    p._currentIndex < p1._currentIndex ∧ p1._currentIndex ≤ p1._source.length ∧
      p1._source = p._source ∧ s1 = p1._currentIndex := by
  obtain ⟨ty, i1, hlex, hle, _, hpost⟩ := Lex_cases p
  cases ty with
  | Unknown => simp [ParseStep, hlex] at h
  | Unicode => simp [ParseStep, hlex] at h
  | Ascii =>
    by_cases hs : start > p._source.length
    · simp [ParseStep, hlex, IdentifyParser.PushWords, substr, hs] at h
    · simp only [ParseStep, hlex, IdentifyParser.PushWords, substr, hs, if_false,
        Option.some.injEq, ParseStepResult.again.injEq] at h
      obtain ⟨h1, h2⟩ := h
      subst h1
      exact ⟨WordShape_lt hpost.2.1, Nat.le_of_lt hpost.1, rfl, h2.symm⟩
  | LowerEnd =>
    by_cases hs : start > p._source.length
    · simp [ParseStep, hlex, IdentifyParser.PushWords, substr, hs] at h
    · simp [ParseStep, hlex, IdentifyParser.PushWords, substr, hs] at h
  | Ignore =>
    simp only [ParseStep, hlex, Option.some.injEq, ParseStepResult.again.injEq] at h
    obtain ⟨h1, h2⟩ := h
    subst h1
    exact ⟨Nat.lt_succ_of_le hle, hpost.1, rfl, h2.symm⟩
  | End => simp [ParseStep, hlex] at h

theorem ParseLoop_total (fuel : Nat) : ∀ (p : IdentifyParser) (start : Nat),
    start ≤ p._source.length → p._source.length - p._currentIndex < fuel →
    ∃ r, ParseLoop fuel p start = some r := by
  induction fuel with
  | zero => intro p start _ h; omega
  | succ n ih =>
    intro p start hstart hfuel
    rw [ParseLoop]
    obtain ⟨i1, hle, _, h | h | h | h | h⟩ := ParseStep_cases p start hstart
    · rw [h.1]; exact ⟨_, rfl⟩
    · have hc := ParseStep_continue p start _ _ h.1
      rw [h.1]
      exact ih _ _ (Nat.le_of_lt h.2.1) (by have := hc.1; simp only at this ⊢; omega)
    · rw [h.1]; exact ⟨_, rfl⟩
    · rw [h.1]
      exact ih _ _ h.2.1 (by simp only; omega)
    · rw [h.1]; exact ⟨_, rfl⟩

/-- Invariant rule for the loop of `Parse` when the local `start` is the scan position. -/
theorem ParseLoop_rule (I Q : IdentifyParser → Prop)
    (hc : ∀ p p1 s1, I p → ParseStep p p._currentIndex = some (ParseStepResult.again p1 s1) →
      I p1)
    (hd : ∀ p p1, I p → ParseStep p p._currentIndex = some (ParseStepResult.done p1) → Q p1)
    (fuel : Nat) : ∀ (p r : IdentifyParser), I p →
      ParseLoop fuel p p._currentIndex = some r → Q r := by
  induction fuel with
  | zero => intro p r _ h; simp [ParseLoop] at h
  | succ n ih =>
    intro p r hI h
    rw [ParseLoop] at h
    cases hs : ParseStep p p._currentIndex with
    | none => rw [hs] at h; simp at h
    | some res =>
      rw [hs] at h
      cases res with
      | done p1 =>
        simp only [Option.some.injEq] at h
        subst h
        exact hd p _ hI hs
      | again p1 s1 =>
        simp only at h
        have h1 := (ParseStep_continue p _ p1 s1 hs).2.2.2
        subst h1
        exact ih p1 r (hc p p1 _ hI hs) h

theorem charAt_of_getElem (src : List Nat) (k : Nat) (hk : k < src.length) :
    charAt src k = ((src[k] % 256 : Nat) : Int) := by
  unfold charAt
  rw [if_pos hk, List.getD_eq_getElem src 0 hk]

theorem Parse_new_eq (identifier : List Nat) :
    (IdentifyParser.new identifier).Parse =
      ParseLoop (identifier.length + 1) (IdentifyParser.new identifier)
        (IdentifyParser.new identifier)._currentIndex := rfl

theorem Parse_new_total (identifier : List Nat) :
    ∃ r, (IdentifyParser.new identifier).Parse = some r :=
  ParseLoop_total _ _ _ (Nat.zero_le _) (by simp [IdentifyParser.new])

/-- A pending bad byte forces the abort: the loop started at or before a byte that is neither
alphanumeric nor an underscore ends with an empty word list. -/
theorem ParseLoop_abort (identifier : List Nat) (k : Nat) (hk : k < identifier.length)
    (hbad : isGood (charAt identifier k) = false) (fuel : Nat) (p r : IdentifyParser)
    (hp : p._source = identifier ∧ p._currentIndex ≤ k)
    (h : ParseLoop fuel p p._currentIndex = some r) : r._words = [] := by
  refine ParseLoop_rule (fun q => q._source = identifier ∧ q._currentIndex ≤ k)
    (fun q => q._words = []) ?_ ?_ fuel p r hp h
  · intro q q1 s1 ⟨hsrc, hidx⟩ hs
    have hL : q._source.length = identifier.length := congrArg List.length hsrc
    obtain ⟨i1, hle, hgood, hcase⟩ := ParseStep_cases q q._currentIndex (by omega)
    have hki : i1 ≤ k := by
      by_contra hc
      have := hgood k hidx (by omega)
      rw [hsrc, hbad] at this
      exact Bool.false_ne_true this
    rcases hcase with h1 | h1 | h1 | h1 | h1
    · rw [h1.1] at hs; simp at hs
    · rw [h1.1] at hs
      simp only [Option.some.injEq, ParseStepResult.again.injEq] at hs
      rw [← hs.1]
      exact ⟨hsrc, hki⟩
    · rw [h1.1] at hs; simp at hs
    · rw [h1.1] at hs
      simp only [Option.some.injEq, ParseStepResult.again.injEq] at hs
      rw [← hs.1]
      refine ⟨hsrc, ?_⟩
      show i1 + 1 ≤ k
      rcases Nat.eq_or_lt_of_le hki with h2 | h2
      · have := h1.2.2
        rw [h2, hsrc, hbad] at this
        exact absurd this Bool.false_ne_true
      · exact h2
    · rw [h1.1] at hs; simp at hs
  · intro q q1 ⟨hsrc, hidx⟩ hs
    have hL : q._source.length = identifier.length := congrArg List.length hsrc
    obtain ⟨i1, hle, hgood, hcase⟩ := ParseStep_cases q q._currentIndex (by omega)
    have hki : i1 ≤ k := by
      by_contra hc
      have := hgood k hidx (by omega)
      rw [hsrc, hbad] at this
      exact Bool.false_ne_true this
    rcases hcase with h1 | h1 | h1 | h1 | h1
    · rw [h1.1] at hs
      simp only [Option.some.injEq, ParseStepResult.done.injEq] at hs
      rw [← hs]
    · rw [h1.1] at hs; simp at hs
    · have := h1.2.1
      omega
    · rw [h1.1] at hs; simp at hs
    · have := h1.2
      omega

/-- Claim C1 (fail-closed abort): an identifier with a byte above 127, or with an ASCII
character that is not a letter, not a digit and not an underscore, anywhere in it, makes
`Parse` return with an empty word list. -/
theorem C1_fail_closed (identifier : List Nat)
    (h : ∃ b ∈ identifier, 127 < b % 256 ∨
      (isupper ((b % 256 : Nat) : Int) = false ∧ islower ((b % 256 : Nat) : Int) = false ∧
        isdigit ((b % 256 : Nat) : Int) = false ∧ b % 256 ≠ 95)) :
    ∃ p, (IdentifyParser.new identifier).Parse = some p ∧ p.GetWords = [] ∧
      split identifier = some [] := by
  obtain ⟨b, hb, hbad⟩ := h
  obtain ⟨k, hk, hkb⟩ := List.getElem_of_mem hb
  have hgood : isGood (charAt identifier k) = false := by
    rw [charAt_of_getElem identifier k hk, hkb]
    rcases hbad with h1 | ⟨h1, h2, h3, h4⟩
    · simp only [isGood, isalnum, isdigit, isupper, islower, Bool.or_eq_false_iff,
        Bool.and_eq_false_iff, decide_eq_false_iff_not]
      omega
    · simp only [isGood, isalnum, h1, h2, h3, Bool.or_self, Bool.false_or,
        decide_eq_false_iff_not]
      omega
  obtain ⟨r, hr⟩ := Parse_new_total identifier
  have hw : r._words = [] :=
    ParseLoop_abort identifier k hk hgood _ (IdentifyParser.new identifier) r
      ⟨rfl, Nat.zero_le _⟩ (by rw [← Parse_new_eq]; exact hr)
  exact ⟨r, hr, hw, by simp [split, hr, IdentifyParser.GetWords, hw]⟩

theorem C1_fail_closed_witness :
    (∃ b ∈ [99, 97, 102, 195, 169], 127 < b % 256 ∨
      (isupper ((b % 256 : Nat) : Int) = false ∧ islower ((b % 256 : Nat) : Int) = false ∧
        isdigit ((b % 256 : Nat) : Int) = false ∧ b % 256 ≠ 95)) ∧
    ∃ p, (IdentifyParser.new [99, 97, 102, 195, 169]).Parse = some p ∧ p.GetWords = [] ∧
      split [99, 97, 102, 195, 169] = some [] :=
  ⟨⟨195, by decide, Or.inl (by decide)⟩,
    C1_fail_closed [99, 97, 102, 195, 169] ⟨195, by decide, Or.inl (by decide)⟩⟩

theorem split_of_Parse {identifier : List Nat} {r : IdentifyParser}
    (h : (IdentifyParser.new identifier).Parse = some r) : split identifier = some r._words := by
  simp [split, h, IdentifyParser.GetWords]

/-- The invariant of the loop of `Parse` behind range validity: every word pushed so far
lies inside the identifier and is the lowercased slice of its range. -/
theorem ParseLoop_valid (identifier : List Nat) (fuel : Nat) (p r : IdentifyParser)
    (hp : p._source = identifier ∧ p._currentIndex ≤ identifier.length ∧
      ∀ w ∈ p._words, w.Range.Start + w.Range.Count ≤ identifier.length ∧
        ((identifier.drop w.Range.Start).take w.Range.Count).map tolowerByte = w.Item)
    (h : ParseLoop fuel p p._currentIndex = some r) :
    ∀ w ∈ r._words, w.Range.Start + w.Range.Count ≤ identifier.length ∧
      ((identifier.drop w.Range.Start).take w.Range.Count).map tolowerByte = w.Item := by
  refine ParseLoop_rule
    (fun q => q._source = identifier ∧ q._currentIndex ≤ identifier.length ∧
      ∀ w ∈ q._words, w.Range.Start + w.Range.Count ≤ identifier.length ∧
        ((identifier.drop w.Range.Start).take w.Range.Count).map tolowerByte = w.Item)
    (fun q => ∀ w ∈ q._words, w.Range.Start + w.Range.Count ≤ identifier.length ∧
        ((identifier.drop w.Range.Start).take w.Range.Count).map tolowerByte = w.Item)
    ?_ ?_ fuel p r hp h
  · intro q q1 s1 ⟨hsrc, hidx, hws⟩ hs
    have hL : q._source.length = identifier.length := congrArg List.length hsrc
    obtain ⟨i1, hle, _, hcase⟩ := ParseStep_cases q q._currentIndex (by omega)
    rcases hcase with h1 | h1 | h1 | h1 | h1
    · rw [h1.1] at hs; simp at hs
    · rw [h1.1] at hs
      simp only [Option.some.injEq, ParseStepResult.again.injEq] at hs
      rw [← hs.1]
      refine ⟨hsrc, by have := h1.2.1; show i1 ≤ _; omega, ?_⟩
      intro w hw
      rcases List.mem_append.mp hw with h2 | h2
      · exact hws w h2
      · rw [List.mem_singleton] at h2
        subst h2
        have := h1.2.1
        refine ⟨by simp only [mkWord]; omega, ?_⟩
        simp only [mkWord, hsrc]
    · rw [h1.1] at hs; simp at hs
    · rw [h1.1] at hs
      simp only [Option.some.injEq, ParseStepResult.again.injEq] at hs
      rw [← hs.1]
      exact ⟨hsrc, by have := h1.2.1; show i1 + 1 ≤ _; omega, hws⟩
    · rw [h1.1] at hs; simp at hs
  · intro q q1 ⟨hsrc, hidx, hws⟩ hs
    have hL : q._source.length = identifier.length := congrArg List.length hsrc
    obtain ⟨i1, hle, _, hcase⟩ := ParseStep_cases q q._currentIndex (by omega)
    rcases hcase with h1 | h1 | h1 | h1 | h1
    · rw [h1.1] at hs
      simp only [Option.some.injEq, ParseStepResult.done.injEq] at hs
      rw [← hs]
      intro w hw
      simp at hw
    · rw [h1.1] at hs; simp at hs
    · rw [h1.1] at hs
      simp only [Option.some.injEq, ParseStepResult.done.injEq] at hs
      rw [← hs]
      intro w hw
      rcases List.mem_append.mp hw with h2 | h2
      · exact hws w h2
      · rw [List.mem_singleton] at h2
        subst h2
        have := h1.2.1
        refine ⟨by simp only [mkWord]; omega, ?_⟩
        simp only [mkWord, hsrc]
    · rw [h1.1] at hs; simp at hs
    · rw [h1.1] at hs
      simp only [Option.some.injEq, ParseStepResult.done.injEq] at hs
      rw [← hs]
      exact hws

/-- Claim C5 (range validity): `split` returns, and every sub-word it returns has
`start + length` at most the length of the identifier and a text that is the slice of the
identifier at its range, lowercased byte by byte. -/
theorem C5_range_validity (identifier : List Nat) :
    ∃ ws, split identifier = some ws ∧
      ∀ w ∈ ws, w.Range.Start + w.Range.Count ≤ identifier.length ∧
        ((identifier.drop w.Range.Start).take w.Range.Count).map tolowerByte = w.Item := by
  obtain ⟨r, hr⟩ := Parse_new_total identifier
  refine ⟨r._words, split_of_Parse hr, ?_⟩
  exact ParseLoop_valid identifier _ (IdentifyParser.new identifier) r
    ⟨rfl, Nat.zero_le _, by intro w hw; simp [IdentifyParser.new] at hw⟩
    (by rw [← Parse_new_eq]; exact hr)

/-- The invariant of the loop of `Parse` behind the ordering of the ranges: every word pushed
so far ends at or before the scan position, and the words are pairwise ordered. -/
theorem ParseLoop_ordered (fuel : Nat) (p r : IdentifyParser)
    (hp : p._currentIndex ≤ p._source.length ∧
      (∀ w ∈ p._words, w.Range.Start + w.Range.Count ≤ p._currentIndex) ∧
      p._words.Pairwise (fun a b => a.Range.Start + a.Range.Count ≤ b.Range.Start))
    (h : ParseLoop fuel p p._currentIndex = some r) :
    r._words.Pairwise (fun a b => a.Range.Start + a.Range.Count ≤ b.Range.Start) := by
  refine ParseLoop_rule
    (fun q => q._currentIndex ≤ q._source.length ∧
      (∀ w ∈ q._words, w.Range.Start + w.Range.Count ≤ q._currentIndex) ∧
      q._words.Pairwise (fun a b => a.Range.Start + a.Range.Count ≤ b.Range.Start))
    (fun q => q._words.Pairwise (fun a b => a.Range.Start + a.Range.Count ≤ b.Range.Start))
    ?_ ?_ fuel p r hp h
  · intro q q1 s1 ⟨hidx, hws, hpw⟩ hs
    obtain ⟨i1, hle, _, hcase⟩ := ParseStep_cases q q._currentIndex hidx
    rcases hcase with h1 | h1 | h1 | h1 | h1
    · rw [h1.1] at hs; simp at hs
    · rw [h1.1] at hs
      simp only [Option.some.injEq, ParseStepResult.again.injEq] at hs
      rw [← hs.1]
      refine ⟨Nat.le_of_lt h1.2.1, ?_, ?_⟩
      · intro w hw
        rcases List.mem_append.mp hw with h2 | h2
        · exact Nat.le_trans (hws w h2) hle
        · rw [List.mem_singleton] at h2
          subst h2
          show q._currentIndex + (i1 - q._currentIndex) ≤ i1
          omega
      · refine List.pairwise_append.mpr ⟨hpw, List.pairwise_singleton _ _, ?_⟩
        intro a ha b hb
        rw [List.mem_singleton] at hb
        subst hb
        exact hws a ha
    · rw [h1.1] at hs; simp at hs
    · rw [h1.1] at hs
      simp only [Option.some.injEq, ParseStepResult.again.injEq] at hs
      rw [← hs.1]
      exact ⟨h1.2.1, fun w hw => Nat.le_trans (hws w hw) (Nat.le_succ_of_le hle), hpw⟩
    · rw [h1.1] at hs; simp at hs
  · intro q q1 ⟨hidx, hws, hpw⟩ hs
    obtain ⟨i1, hle, _, hcase⟩ := ParseStep_cases q q._currentIndex hidx
    rcases hcase with h1 | h1 | h1 | h1 | h1
    · rw [h1.1] at hs
      simp only [Option.some.injEq, ParseStepResult.done.injEq] at hs
      rw [← hs]
      exact List.Pairwise.nil
    · rw [h1.1] at hs; simp at hs
    · rw [h1.1] at hs
      simp only [Option.some.injEq, ParseStepResult.done.injEq] at hs
      rw [← hs]
      refine List.pairwise_append.mpr ⟨hpw, List.pairwise_singleton _ _, ?_⟩
      intro a ha b hb
      rw [List.mem_singleton] at hb
      subst hb
      exact hws a ha
    · rw [h1.1] at hs; simp at hs
    · rw [h1.1] at hs
      simp only [Option.some.injEq, ParseStepResult.done.injEq] at hs
      rw [← hs]
      exact hpw

/-- Claim C6 (ordered, non-overlapping ranges): `split` returns, and in the sequence it
returns each sub-word ends at or before the start of the next one (and of every later
one). -/
theorem C6_ordered_ranges (identifier : List Nat) :
    ∃ ws, split identifier = some ws ∧
      ws.Chain' (fun a b => a.Range.Start + a.Range.Count ≤ b.Range.Start) ∧
      ws.Pairwise (fun a b => a.Range.Start + a.Range.Count ≤ b.Range.Start) := by
  obtain ⟨r, hr⟩ := Parse_new_total identifier
  have hpw := ParseLoop_ordered _ (IdentifyParser.new identifier) r
    ⟨Nat.zero_le _, by intro w hw; simp [IdentifyParser.new] at hw,
      by simp [IdentifyParser.new]⟩
    (by rw [← Parse_new_eq]; exact hr)
  exact ⟨r._words, split_of_Parse hr, List.Pairwise.chain' hpw, hpw⟩

/-- Claim C7 (totality): `Parse` returns on every identifier; every iteration of its loop
that does not return moves the scan position strictly forward, and not past the end of the
identifier; the loop returns within `length + 1` iterations, each of which makes one
`Lex` call; and every `Lex` call returns.  The last part shows an iteration that does not
return, on `a_b`. -/
theorem C7_totality :
    (∀ identifier : List Nat, ∃ r, (IdentifyParser.new identifier).Parse = some r) ∧
    (∀ (p : IdentifyParser) (start : Nat) (p1 : IdentifyParser) (start1 : Nat),
      ParseStep p start = some (ParseStepResult.again p1 start1) →
        p._currentIndex < p1._currentIndex ∧ p1._currentIndex ≤ p1._source.length) ∧
    (∀ identifier : List Nat, ∃ n r, n ≤ identifier.length + 1 ∧
      ParseLoop n (IdentifyParser.new identifier) 0 = some r) ∧
    (∀ p : IdentifyParser, ∃ res, p.Lex = some res) ∧
    ParseStep (IdentifyParser.new (bytes "a_b")) 0 =
      some (ParseStepResult.again ⟨bytes "a_b", 2, []⟩ 2) := by
  refine ⟨Parse_new_total, ?_, ?_, ?_, by decide⟩
  · intro p start p1 start1 h
    have := ParseStep_continue p start p1 start1 h
    exact ⟨this.1, this.2.1⟩
  · intro identifier
    obtain ⟨r, hr⟩ := Parse_new_total identifier
    exact ⟨identifier.length + 1, r, Nat.le_refl _, hr⟩
  · intro p
    obtain ⟨ty, i1, hlex, _⟩ := Lex_cases p
    exact ⟨_, hlex⟩

theorem WordShape_has_lower {src : List Nat} {a b : Nat} (h : WordShape src a b) :
    ∃ k, ∃ hk : k < src.length, islower ((src[k] % 256 : Nat) : Int) = true := by
  have hb := WordShape_le_length h
  have hlt := WordShape_lt h
  have hk : b - 1 < src.length := by omega
  refine ⟨b - 1, hk, ?_⟩
  rw [← charAt_of_getElem src (b - 1) hk]
  rcases h with ⟨_, h2⟩ | ⟨h1, _, h3⟩
  · exact h2 (b - 1) (by omega) (by omega)
  · exact h3 (b - 1) (by omega) (by omega)

/-- The invariant of the loop of `Parse` on a source without lowercase letters: the word
list stays as it is. -/
theorem ParseLoop_no_lower (fuel : Nat) (p r : IdentifyParser)
    (hlow : ∀ b ∈ p._source, islower ((b % 256 : Nat) : Int) = false)
    (hp : p._currentIndex ≤ p._source.length ∧ p._words = [])
    (h : ParseLoop fuel p p._currentIndex = some r) : r._words = [] := by
  have hno : ∀ a b, ¬ WordShape p._source a b := by
    intro a b hw
    obtain ⟨k, hk, hl⟩ := WordShape_has_lower hw
    rw [hlow _ (List.getElem_mem hk)] at hl
    exact Bool.false_ne_true hl
  refine ParseLoop_rule
    (fun q => q._source = p._source ∧ q._currentIndex ≤ q._source.length ∧ q._words = [])
    (fun q => q._words = []) ?_ ?_ fuel p r ⟨rfl, hp⟩ h
  · intro q q1 s1 ⟨hsrc, hidx, hws⟩ hs
    obtain ⟨i1, hle, _, hcase⟩ := ParseStep_cases q q._currentIndex hidx
    rcases hcase with h1 | h1 | h1 | h1 | h1
    · rw [h1.1] at hs; simp at hs
    · exact absurd (hsrc ▸ h1.2.2.1) (hno _ _)
    · rw [h1.1] at hs; simp at hs
    · rw [h1.1] at hs
      simp only [Option.some.injEq, ParseStepResult.again.injEq] at hs
      rw [← hs.1]
      exact ⟨hsrc, h1.2.1, hws⟩
    · rw [h1.1] at hs; simp at hs
  · intro q q1 ⟨hsrc, hidx, hws⟩ hs
    obtain ⟨i1, hle, _, hcase⟩ := ParseStep_cases q q._currentIndex hidx
    rcases hcase with h1 | h1 | h1 | h1 | h1
    · rw [h1.1] at hs
      simp only [Option.some.injEq, ParseStepResult.done.injEq] at hs
      rw [← hs]
    · rw [h1.1] at hs; simp at hs
    · exact absurd (hsrc ▸ h1.2.2) (hno _ _)
    · rw [h1.1] at hs; simp at hs
    · rw [h1.1] at hs
      simp only [Option.some.injEq, ParseStepResult.done.injEq] at hs
      rw [← hs]
      exact hws

/-- Claim C8 (no lowercase letter, no word): on an identifier without a lowercase ASCII
letter (the empty one included) `split` returns the empty sequence. -/
theorem C8_no_lowercase_no_word (identifier : List Nat)
    (h : ∀ b ∈ identifier, islower ((b % 256 : Nat) : Int) = false) :
    split identifier = some [] := by
  obtain ⟨r, hr⟩ := Parse_new_total identifier
  have hw : r._words = [] :=
    ParseLoop_no_lower _ (IdentifyParser.new identifier) r h ⟨Nat.zero_le _, rfl⟩
      (by rw [← Parse_new_eq]; exact hr)
  rw [split_of_Parse hr, hw]

theorem C8_no_lowercase_no_word_witness :
    (∀ b ∈ bytes "ID", islower ((b % 256 : Nat) : Int) = false) ∧
      split (bytes "ID") = some [] :=
  ⟨by decide, C8_no_lowercase_no_word (bytes "ID") (by decide)⟩

theorem drop_cons_view {src : List Nat} {i : Nat} {c : Nat} {t : List Nat}
    (h : src.drop i = c :: t) :
    i < src.length ∧ charAt src i = ((c % 256 : Nat) : Int) ∧ src.drop (i + 1) = t := by
  have hlt : i < src.length := by
    by_contra hc
    rw [List.drop_eq_nil_of_le (by omega)] at h
    exact List.noConfusion h
  refine ⟨hlt, ?_, ?_⟩
  · rw [charAt_of_getElem src i hlt]
    have := List.drop_eq_getElem_cons hlt
    rw [this] at h
    rw [(List.cons.inj h).1]
  · have := List.drop_eq_getElem_cons hlt
    rw [this] at h
    exact (List.cons.inj h).2

theorem drop_nil_view {src : List Nat} {i : Nat} (h : src.drop i = []) :
    charAt src i = EOZ := by
  rw [charAt_eoz_iff]
  exact List.drop_eq_nil_iff.mp h

/-- The loop of `Lex` in state `LowerCase` runs to the end of a run of lowercase letters:
it returns `LowerEnd` when the identifier ends there and `Ascii` when an alphanumeric
character that is not a lowercase letter follows. -/
theorem LexLoop_lower (l rest : List Nat) (ws : List Word) (src : List Nat) (start : Nat)
    (hrest : rest = [] ∨ ∃ c t, rest = c :: t ∧ isalnum ((c % 256 : Nat) : Int) = true ∧
      islower ((c % 256 : Nat) : Int) = false) :
    ∀ (fuel i : Nat), src.drop i = l ++ rest → isLowerRun l = true → l.length < fuel →
      LexLoop fuel ⟨src, i, ws⟩ ParseState.LowerCase start =
        some (if rest = [] then IdentifyType.LowerEnd else IdentifyType.Ascii,
          ⟨src, i + l.length, ws⟩) := by
  induction l with
  | nil =>
    intro fuel i hdrop _ hfuel
    obtain ⟨n, rfl⟩ : ∃ n, fuel = n + 1 := ⟨fuel - 1, by simp at hfuel; omega⟩
    rw [LexLoop]
    simp only [GetCurrentChar_eq, List.nil_append] at hdrop ⊢
    rcases hrest with h | ⟨c, t, h, hc1, hc2⟩
    · subst h
      simp [drop_nil_view hdrop]
    · subst h
      obtain ⟨hlt, hch, _⟩ := drop_cons_view hdrop
      rw [← hch] at hc1 hc2
      have h1 : charAt src i ≠ EOZ := fun h => by
        have := (charAt_eoz_iff src i).mp h; omega
      have h2 : charAt src i ≠ 95 := by
        intro h95
        rw [h95] at hc1
        exact absurd hc1 (by decide)
      have h3 : ¬ (charAt src i > CHAR_MAX) := by
        intro h127
        simp only [isalnum, isdigit, isupper, islower, Bool.or_eq_true, Bool.and_eq_true,
          decide_eq_true_eq] at hc1
        unfold CHAR_MAX at h127
        omega
      simp only [h1, h2, h3, hc1, hc2, if_false, Bool.not_true, Bool.false_eq_true,
        Nat.add_zero, List.length_nil]
      simp
  | cons b l ih =>
    intro fuel i hdrop hrun hfuel
    obtain ⟨n, rfl⟩ : ∃ n, fuel = n + 1 := ⟨fuel - 1, by simp at hfuel; omega⟩
    rw [LexLoop]
    simp only [GetCurrentChar_eq]
    obtain ⟨hlt, hch, hnext⟩ := drop_cons_view (t := l ++ rest) hdrop
    simp only [isLowerRun, List.all_cons, Bool.and_eq_true] at hrun
    have hb := hrun.1
    rw [← hch] at hb
    have h1 : charAt src i ≠ EOZ := fun h => by
      have := (charAt_eoz_iff src i).mp h; omega
    have h2 : charAt src i ≠ 95 := by
      intro h95
      rw [h95] at hb
      exact absurd hb (by decide)
    have h3 : ¬ (charAt src i > CHAR_MAX) := by
      intro h127
      simp only [islower, Bool.and_eq_true, decide_eq_true_eq] at hb
      unfold CHAR_MAX at h127
      omega
    have h4 : isalnum (charAt src i) = true := by simp [isalnum, hb]
    simp only [h1, h2, h3, h4, hb, if_false, if_true, Bool.not_true, Bool.false_eq_true]
    rw [ih n (i + 1) hnext hrun.2 (by simp at hfuel; omega)]
    simp only [List.length_cons]
    congr 3
    omega

theorem isupper_facts {ch : Int} (h : isupper ch = true) :
    ch ≠ EOZ ∧ ch ≠ 95 ∧ ¬ (ch > CHAR_MAX) ∧ isalnum ch = true ∧ isdigit ch = false ∧
      islower ch = false := by
  have h0 := h
  simp only [isupper, Bool.and_eq_true, decide_eq_true_eq] at h0
  refine ⟨by unfold EOZ; omega, by omega, by unfold CHAR_MAX; omega, by simp [isalnum, h], ?_, ?_⟩
  · simp only [isdigit, Bool.and_eq_false_iff, decide_eq_false_iff_not]; omega
  · simp only [islower, Bool.and_eq_false_iff, decide_eq_false_iff_not]; omega

theorem islower_facts {ch : Int} (h : islower ch = true) :
    ch ≠ EOZ ∧ ch ≠ 95 ∧ ¬ (ch > CHAR_MAX) ∧ isalnum ch = true ∧ isdigit ch = false ∧
      isupper ch = false := by
  have h0 := h
  simp only [islower, Bool.and_eq_true, decide_eq_true_eq] at h0
  refine ⟨by unfold EOZ; omega, by omega, by unfold CHAR_MAX; omega, by simp [isalnum, h], ?_, ?_⟩
  · simp only [isdigit, Bool.and_eq_false_iff, decide_eq_false_iff_not]; omega
  · simp only [isupper, Bool.and_eq_false_iff, decide_eq_false_iff_not]; omega

theorem drop_length_view {src : List Nat} {i : Nat} {l : List Nat} (h : src.drop i = l) :
    src.length - i = l.length := by
  rw [← h, List.length_drop]

/-- One `Lex` call on a word (a run of lowercase letters, or one uppercase letter and a run
of lowercase letters) that ends the identifier or is followed by an alphanumeric character
that is not a lowercase letter: the call consumes exactly the word. -/
theorem Lex_word (w rest : List Nat) (ws : List Word) (src : List Nat) (i : Nat)
    (hw : isWord w = true)
    (hrest : rest = [] ∨ ∃ c t, rest = c :: t ∧ isalnum ((c % 256 : Nat) : Int) = true ∧
      islower ((c % 256 : Nat) : Int) = false)
    (hdrop : src.drop i = w ++ rest) :
    IdentifyParser.Lex ⟨src, i, ws⟩ =
      some (if rest = [] then IdentifyType.LowerEnd else IdentifyType.Ascii,
        ⟨src, i + w.length, ws⟩) := by
  have hlen := drop_length_view hdrop
  rw [List.length_append] at hlen
  simp only [isWord, Bool.or_eq_true, Bool.and_eq_true, Bool.not_eq_true',
    List.isEmpty_eq_false] at hw
  rcases hw with ⟨hne, hrun⟩ | hcap
  · -- a run of lowercase letters
    obtain ⟨b, l, rfl⟩ := List.exists_cons_of_ne_nil hne
    obtain ⟨_, hch, hnext⟩ := drop_cons_view (t := l ++ rest) hdrop
    have hrun0 := hrun
    simp only [isLowerRun, List.all_cons, Bool.and_eq_true] at hrun
    have hb := hrun.1
    rw [← hch] at hb
    obtain ⟨h1, h2, h3, h4, h5, h6⟩ := islower_facts hb
    simp only [IdentifyParser.Lex]
    rw [LexLoop]
    simp only [GetCurrentChar_eq, h1, h2, h3, h4, h5, h6, hb, if_false, if_true, Bool.not_true,
      Bool.false_eq_true]
    rw [LexLoop_lower l rest ws src i hrest _ (i + 1) hnext hrun.2
      (by simp only [List.length_cons] at hlen; omega)]
    simp only [List.length_cons]
    congr 3
    omega
  · -- one uppercase letter, then lowercase letters
    match w, hcap, hdrop, hlen with
    | c :: d :: l, hcap, hdrop, hlen =>
      simp only [isCapWord, Bool.and_eq_true] at hcap
      obtain ⟨_, hch, hnext⟩ := drop_cons_view (t := d :: l ++ rest) hdrop
      obtain ⟨_, hch2, hnext2⟩ := drop_cons_view (t := l ++ rest) hnext
      have hc := hcap.1
      rw [← hch] at hc
      have hrun := hcap.2
      simp only [isLowerRun, List.all_cons, Bool.and_eq_true] at hrun
      have hd := hrun.1
      rw [← hch2] at hd
      obtain ⟨h1, h2, h3, h4, h5, h6⟩ := isupper_facts hc
      obtain ⟨g1, g2, g3, g4, g5, g6⟩ := islower_facts hd
      simp only [List.length_cons] at hlen ⊢
      obtain ⟨m, hm⟩ : ∃ m, src.length - i = m + 1 := ⟨src.length - i - 1, by omega⟩
      simp only [IdentifyParser.Lex, hm]
      rw [LexLoop]
      simp only [GetCurrentChar_eq, h1, h2, h3, h4, h5, h6, hc, if_false, if_true,
        Bool.not_true, Bool.false_eq_true]
      rw [LexLoop]
      simp only [GetCurrentChar_eq, g1, g2, g3, g4, g5, g6, hd, if_false, if_true,
        Bool.not_true, Bool.false_eq_true, Nat.add_sub_cancel_left]
      rw [LexLoop_lower l rest ws src i hrest _ (i + 1 + 1) hnext2 hrun.2 (by omega)]
      congr 3
      omega

theorem isCapWord_head {w : List Nat} (h : isCapWord w = true) :
    ∃ c t, w = c :: t ∧ isalnum ((c % 256 : Nat) : Int) = true ∧
      islower ((c % 256 : Nat) : Int) = false := by
  match w, h with
  | c :: d :: l, h =>
    simp only [isCapWord, Bool.and_eq_true] at h
    obtain ⟨_, _, _, h4, _, h6⟩ := isupper_facts h.1
    exact ⟨c, d :: l, rfl, h4, h6⟩

theorem isWord_of_isCapWord {w : List Nat} (h : isCapWord w = true) : isWord w = true := by
  simp [isWord, h]

theorem isWord_ne_nil {w : List Nat} (h : isWord w = true) : w ≠ [] := by
  intro hw
  subst hw
  simp [isWord, isCapWord] at h

theorem take_drop_append (pre w rest : List Nat) :
    ((pre ++ (w ++ rest)).drop pre.length).take w.length = w := by
  rw [List.drop_left, List.take_left]

theorem ParseStep_of_Ascii (p p1 : IdentifyParser) (start : Nat)
    (h : p.Lex = some (IdentifyType.Ascii, p1)) (hs : start ≤ p1._source.length) :
    ParseStep p start = some (ParseStepResult.again
      { p1 with _words := p1._words ++ [mkWord p1._source start p1._currentIndex] }
      p1._currentIndex) := by
  have hsub : ¬ (start > p1._source.length) := by omega
  simp [ParseStep, h, IdentifyParser.PushWords, substr, hsub, mkWord]

theorem ParseStep_of_LowerEnd (p p1 : IdentifyParser) (start : Nat)
    (h : p.Lex = some (IdentifyType.LowerEnd, p1)) (hs : start ≤ p1._source.length) :
    ParseStep p start = some (ParseStepResult.done
      { p1 with _words := p1._words ++ [mkWord p1._source start p1._source.length] }) := by
  have hsub : ¬ (start > p1._source.length) := by omega
  simp [ParseStep, h, IdentifyParser.PushWords, substr, hsub, mkWord]

theorem mkWord_append (pre w rest : List Nat) :
    mkWord (pre ++ (w ++ rest)) pre.length (pre.length + w.length) =
      { Range := { Start := pre.length, Count := w.length }, Item := w.map tolowerByte } := by
  simp only [mkWord, Nat.add_sub_cancel_left, take_drop_append]

/-- The loop of `Parse` on a sequence of words of which all but the first start with an
uppercase letter: it pushes one sub-word per word, with the range of that word. -/
theorem ParseLoop_words : ∀ (words : List (List Nat)) (pre : List Nat) (ws : List Word)
    (fuel : Nat), words ≠ [] → (∀ w ∈ words, isWord w = true) →
    (∀ w ∈ words.tail, isCapWord w = true) → words.length ≤ fuel →
    ParseLoop fuel ⟨pre ++ words.flatten, pre.length, ws⟩ pre.length =
      some ⟨pre ++ words.flatten, (pre ++ words.flatten).length, ws ++ layout pre.length words⟩
  | [], _, _, _, hne, _, _, _ => absurd rfl hne
  | [w], pre, ws, fuel, _, hw, _, hfuel => by
    obtain ⟨n, rfl⟩ : ∃ n, fuel = n + 1 := ⟨fuel - 1, by simp at hfuel; omega⟩
    have hfl : [w].flatten = w ++ [] := by simp
    have hlex := Lex_word w [] ws (pre ++ (w ++ [])) pre.length (hw w (by simp)) (Or.inl rfl)
      (by simp)
    rw [if_pos rfl] at hlex
    have hmk := mkWord_append pre w []
    have hlen : (pre ++ (w ++ [])).length = pre.length + w.length := by simp
    rw [hfl, ParseLoop, ParseStep_of_LowerEnd _ _ _ hlex (by simp)]
    simp only [hmk, layout, hlen]
  | w :: w2 :: more, pre, ws, fuel, _, hw, hcap, hfuel => by
    obtain ⟨n, rfl⟩ : ∃ n, fuel = n + 1 := ⟨fuel - 1, by simp at hfuel; omega⟩
    have hw2 : isCapWord w2 = true := hcap w2 (by simp)
    obtain ⟨c, t, hc, hc1, hc2⟩ := isCapWord_head hw2
    have hrest : (w2 :: more).flatten ≠ [] := by
      rw [List.flatten_cons, hc]
      exact List.cons_ne_nil _ _
    have hfl : (w :: w2 :: more).flatten = w ++ (w2 :: more).flatten := rfl
    have hlex := Lex_word w (w2 :: more).flatten ws (pre ++ (w ++ (w2 :: more).flatten))
      pre.length (hw w (by simp))
      (Or.inr ⟨c, t ++ more.flatten, by rw [List.flatten_cons, hc]; rfl, hc1, hc2⟩) (by simp)
    rw [if_neg hrest] at hlex
    have ih := ParseLoop_words (w2 :: more) (pre ++ w)
      (ws ++ [{ Range := { Start := pre.length, Count := w.length },
                Item := w.map tolowerByte }]) n (List.cons_ne_nil _ _)
      (fun x hx => hw x (List.mem_cons_of_mem _ hx))
      (fun x hx => hcap x (by
        simp only [List.tail_cons] at hx ⊢
        exact List.mem_cons_of_mem _ hx))
      (by simp only [List.length_cons] at hfuel ⊢; omega)
    rw [hfl, ParseLoop, ParseStep_of_Ascii _ _ _ hlex (by simp)]
    simp only [mkWord_append]
    rw [List.append_assoc, List.length_append] at ih
    rw [ih]
    simp [layout]

theorem length_le_flatten_length : ∀ (words : List (List Nat)),
    (∀ w ∈ words, w ≠ []) → words.length ≤ words.flatten.length
  | [], _ => Nat.le_refl _
  | w :: more, h => by
    have h1 := length_le_flatten_length more (fun x hx => h x (List.mem_cons_of_mem _ hx))
    have h2 : 0 < w.length := List.length_pos.mpr (h w (List.mem_cons_self _ _))
    rw [List.flatten_cons, List.length_append, List.length_cons]
    omega

/-- Claim C2 (camelCase and PascalCase segmentation): for an identifier made of an optional
run of lowercase letters followed by capitalized words (one uppercase letter, then one or
more lowercase letters), with at least one word in all, `split` returns one sub-word per
word, in order, with the lowercased text of the word and the range of exactly that word;
the ranges follow one another from offset 0 to the end of the identifier. -/
theorem C2_camel_case (first : List Nat) (caps : List (List Nat))
    (hfirst : isLowerRun first = true) (hcaps : ∀ w ∈ caps, isCapWord w = true)
    (hne : first ≠ [] ∨ caps ≠ []) :
    split (first ++ caps.flatten) =
      some (layout 0 ((if first = [] then [] else [first]) ++ caps)) := by
  have key : ∀ words : List (List Nat), words ≠ [] → (∀ w ∈ words, isWord w = true) →
      (∀ w ∈ words.tail, isCapWord w = true) → split words.flatten = some (layout 0 words) := by
    intro words h1 h2 h3
    have hlen := length_le_flatten_length words (fun w hw => isWord_ne_nil (h2 w hw))
    have := ParseLoop_words words [] [] (words.flatten.length + 1) h1 h2 h3 (by omega)
    simp only [List.nil_append, List.length_nil] at this
    simp only [split, IdentifyParser.Parse, IdentifyParser.new, this, Option.map_some',
      IdentifyParser.GetWords]
  by_cases hf : first = []
  · subst hf
    have hc : caps ≠ [] := by
      rcases hne with h | h
      · exact absurd rfl h
      · exact h
    simp only [List.nil_append, if_true]
    exact key caps hc (fun w hw => isWord_of_isCapWord (hcaps w hw))
      (fun w hw => hcaps w (List.mem_of_mem_tail hw))
  · simp only [hf, if_false]
    have := key (first :: caps) (List.cons_ne_nil _ _)
      (by
        intro w hw
        rcases List.mem_cons.mp hw with h | h
        · subst h
          simp [isWord, hfirst, hf]
        · exact isWord_of_isCapWord (hcaps w h))
      (by simpa using hcaps)
    simpa [List.flatten] using this

theorem C2_camel_case_witness :
    isLowerRun (bytes "user") = true ∧ (∀ w ∈ [bytes "Name"], isCapWord w = true) ∧
    (bytes "user" ≠ [] ∨ [bytes "Name"] ≠ []) ∧
    bytes "user" ++ [bytes "Name"].flatten = bytes "userName" ∧
    split (bytes "user" ++ [bytes "Name"].flatten) =
      some [⟨⟨0, 4⟩, bytes "user"⟩, ⟨⟨4, 4⟩, bytes "name"⟩] :=
  ⟨by decide, by decide, Or.inl (by decide), by decide,
    C2_camel_case (bytes "user") [bytes "Name"] (by decide) (by decide) (Or.inl (by decide))⟩

/-! ## The projection loop -/

theorem Diagnose_foldl (infos : List LuaDiagnosisInfo) : ∀ acc : List vscode.Diagnostic,
    infos.foldl (fun diagnostics diagnosisInfo =>
      diagnostics ++ [DiagnoseBody diagnosisInfo]) acc = acc ++ infos.map DiagnoseBody := by
  induction infos with
  | nil => intro acc; simp
  | cons a l ih => intro acc; simp [List.foldl_cons, ih]

theorem Diagnose_eq_map (infos : List LuaDiagnosisInfo) :
    Diagnose infos = infos.map DiagnoseBody := by
  simp [Diagnose, Diagnose_foldl]

/-- Claim C9 (the projection is one to one and keeps the order): the projection loop of
`Diagnose` returns as many diagnostics as there are diagnosis records, and the i-th
diagnostic has the message and the start and end line and character of the i-th record. -/
theorem C9_projection_order (infos : List LuaDiagnosisInfo) :
    (Diagnose infos).length = infos.length ∧
    (Diagnose infos).map (fun d => (d.message, d.range.start.line, d.range.start.character,
        d.range.«end».line, d.range.«end».character)) =
      infos.map (fun r => (r.Message, r.Range.Start.Line, r.Range.Start.Character,
        r.Range.End.Line, r.Range.End.Character)) := by
  rw [Diagnose_eq_map]
  refine ⟨List.length_map _ _, ?_⟩
  rw [List.map_map]
  apply List.map_congr_left
  intro r _
  cases h : r.type <;> simp [DiagnoseBody, h]

/-- Claim C10 (projection severity): the diagnostic projected from a diagnosis record has
severity `Information` exactly when the kind of the record is `Spell`, and severity
`Warning` for every other kind; this holds record by record along the output of
`Diagnose`. -/
theorem C10_projection_severity :
    (∀ r : LuaDiagnosisInfo,
      ((DiagnoseBody r).severity = vscode.DiagnosticSeverity.Information ↔
        r.type = DiagnosisType.Spell) ∧
      (r.type ≠ DiagnosisType.Spell →
        (DiagnoseBody r).severity = vscode.DiagnosticSeverity.Warning)) ∧
    (∀ infos : List LuaDiagnosisInfo,
      (Diagnose infos).map (fun d => d.severity) =
        infos.map (fun r => if r.type = DiagnosisType.Spell
          then vscode.DiagnosticSeverity.Information
          else vscode.DiagnosticSeverity.Warning)) := by
  have hone : ∀ r : LuaDiagnosisInfo, (DiagnoseBody r).severity =
      if r.type = DiagnosisType.Spell then vscode.DiagnosticSeverity.Information
      else vscode.DiagnosticSeverity.Warning := by
    intro r
    cases h : r.type <;> simp [DiagnoseBody, h]
  refine ⟨fun r => ⟨?_, ?_⟩, ?_⟩
  · rw [hone r]
    by_cases h : r.type = DiagnosisType.Spell <;> simp [h]
  · intro h
    rw [hone r, if_neg h]
  · intro infos
    rw [Diagnose_eq_map, List.map_map]
    apply List.map_congr_left
    intro r _
    exact hone r

/-- Claim C3 (snake_case segmentation), the code at `user_name_2`: `Lex` returns `Ignore`
at an underscore in every state, also in state `LowerCase`, so the lowercase word before
the underscore is never pushed and `split` returns no word at all. -/
theorem C3_snake_case_code :
    split (bytes "user_name_2") = some [] ∧
    split (bytes "user_name") = some [⟨⟨5, 4⟩, bytes "name"⟩] ∧
    split (bytes "user_name_2") ≠ some [⟨⟨0, 4⟩, bytes "user"⟩, ⟨⟨5, 4⟩, bytes "name"⟩] := by
  decide

/-- Claim C4 (acronym prefix), the code at `HTTPResponseCode`: after the rewind `Lex`
returns `Ignore`, `Parse` skips the uppercase letter that the rewind went back to, and the
word after the acronym loses its first letter. -/
theorem C4_acronym_code :
    split (bytes "HTTPResponseCode") =
      some [⟨⟨5, 7⟩, bytes "esponse"⟩, ⟨⟨12, 4⟩, bytes "code"⟩] ∧
    split (bytes "HTTPResponseCode") ≠
      some [⟨⟨4, 8⟩, bytes "response"⟩, ⟨⟨12, 4⟩, bytes "code"⟩] := by
  decide

/-! ## Tags, routing and correction actions -/

theorem bytes_format :
    bytes "emmylua.format" = [101, 109, 109, 121, 108, 117, 97, 46, 102, 111, 114, 109, 97, 116] := by
  decide

theorem bytes_spell :
    bytes "emmylua.spell" = [101, 109, 109, 121, 108, 117, 97, 46, 115, 112, 101, 108, 108] := by
  decide

theorem bytes_spell_bar :
    bytes "emmylua.spell|" =
      [101, 109, 109, 121, 108, 117, 97, 46, 115, 112, 101, 108, 108, 124] := by
  decide

/-- The tag that `Diagnose` writes, kind by kind. -/
theorem DiagnoseBody_data (r : LuaDiagnosisInfo) :
    (DiagnoseBody r).data =
      match r.type with
      | DiagnosisType.Indent => bytes "emmylua.format"
      | DiagnosisType.Blank => bytes "emmylua.format"
      | DiagnosisType.Align => bytes "emmylua.format"
      | DiagnosisType.Spell => bytes "emmylua.spell|" ++ r.Data
      | DiagnosisType.Other _ => [] := by
  cases h : r.type <;> simp [DiagnoseBody, h]

/-- Claim C11 (projection tag), the code at an `Indent` record: the tag is the string
`emmylua.format`, not the string `format`. -/
theorem C11_tag_counterexample :
    (DiagnoseBody ⟨[], ⟨⟨0, 0⟩, ⟨0, 1⟩⟩, DiagnosisType.Indent, []⟩).data ≠ bytes "format" ∧
    (DiagnoseBody ⟨[], ⟨⟨0, 0⟩, ⟨0, 1⟩⟩, DiagnosisType.Spell, bytes "wrold"⟩).data ≠
      bytes "spell|" ++ bytes "wrold" := by
  decide

/-- Claim C11 (projection tag), as amended: the tag of the projected diagnostic is exactly
the string `emmylua.format` when the kind is `Indent`, `Blank` or `Align`, exactly
`emmylua.spell|` followed by the payload of the record when the kind is `Spell`, and empty
for every other kind; this holds record by record along the output of `Diagnose`. -/
theorem C11_projection_tag :
    (∀ r : LuaDiagnosisInfo,
      (DiagnoseBody r).data =
        if r.type = DiagnosisType.Indent ∨ r.type = DiagnosisType.Blank ∨
            r.type = DiagnosisType.Align then bytes "emmylua.format"
        else if r.type = DiagnosisType.Spell then bytes "emmylua.spell|" ++ r.Data
        else []) ∧
    (∀ infos : List LuaDiagnosisInfo,
      (Diagnose infos).map (fun d => d.data) =
        infos.map (fun r =>
          if r.type = DiagnosisType.Indent ∨ r.type = DiagnosisType.Blank ∨
              r.type = DiagnosisType.Align then bytes "emmylua.format"
          else if r.type = DiagnosisType.Spell then bytes "emmylua.spell|" ++ r.Data
          else [])) := by
  have hone : ∀ r : LuaDiagnosisInfo, (DiagnoseBody r).data =
      if r.type = DiagnosisType.Indent ∨ r.type = DiagnosisType.Blank ∨
          r.type = DiagnosisType.Align then bytes "emmylua.format"
      else if r.type = DiagnosisType.Spell then bytes "emmylua.spell|" ++ r.Data
      else [] := by
    intro r
    rw [DiagnoseBody_data]
    cases h : r.type <;> simp
  refine ⟨hone, ?_⟩
  intro infos
  rw [Diagnose_eq_map, List.map_map]
  apply List.map_congr_left
  intro r _
  exact hone r

/-- Claim C12 (the routing predicates agree with the projector): on the diagnostic projected
from a record, `IsSpellDiagnostic` holds exactly when the kind is `Spell`,
`IsCodeFormatDiagnostic` holds exactly when the kind is `Indent`, `Blank` or `Align`, and
the two never hold together. -/
theorem C12_routing (r : LuaDiagnosisInfo) :
    (IsSpellDiagnostic (DiagnoseBody r) = true ↔ r.type = DiagnosisType.Spell) ∧
    (IsCodeFormatDiagnostic (DiagnoseBody r) = true ↔
      (r.type = DiagnosisType.Indent ∨ r.type = DiagnosisType.Blank ∨
        r.type = DiagnosisType.Align)) ∧
    ¬ (IsSpellDiagnostic (DiagnoseBody r) = true ∧
      IsCodeFormatDiagnostic (DiagnoseBody r) = true) := by
  have hd := DiagnoseBody_data r
  cases h : r.type <;> rw [h] at hd <;>
    simp [IsSpellDiagnostic, IsCodeFormatDiagnostic, hd, bytes_format, bytes_spell,
      bytes_spell_bar, starts_with]

theorem MakeSpellActionsBody_foldl (upperFirst : Bool) (d : vscode.Diagnostic) (uri : List Nat)
    (suggests : List SuggestItem) : ∀ result : vscode.CodeActionResult,
    (suggests.foldl (MakeSpellActionsBody upperFirst d uri) result).actions =
      result.actions ++ (suggests.filter (fun s => !s.Term.isEmpty)).map (fun s =>
        { title := spellTerm upperFirst s.Term
          command :=
            { title := spellTerm upperFirst s.Term
              command := bytes "emmylua.spell.correct"
              arguments := [vscode.Argument.text uri, d.range.Serialize,
                vscode.Argument.text (spellTerm upperFirst s.Term)] }
          kind := vscode.CodeActionKind.QuickFix }) := by
  induction suggests with
  | nil => intro result; simp
  | cons s l ih =>
    intro result
    rw [List.foldl_cons, ih]
    cases hs : s.Term with
    | nil => simp [MakeSpellActionsBody, hs]
    | cons c t =>
      cases upperFirst <;> simp [MakeSpellActionsBody, hs, spellTerm]

theorem MakeSpellActions_eq (G : List Nat → List SuggestItem) (result : vscode.CodeActionResult)
    (d : vscode.Diagnostic) (uri : List Nat) (pos : Nat)
    (hpos : find_first_of d.data 124 = some pos) (hne : d.data.drop (pos + 1) ≠ []) :
    MakeSpellActions G result d uri =
      ((G ((d.data.drop (pos + 1)).map tolowerByte)).foldl
          (MakeSpellActionsBody (isupper (((d.data.drop (pos + 1)).headD 0 % 256 : Nat) : Int))
            d uri) result,
        [(d.data.drop (pos + 1)).map tolowerByte]) := by
  have h : (d.data.drop (pos + 1)).isEmpty = false := by
    cases hd : d.data.drop (pos + 1) with
    | nil => exact absurd hd hne
    | cons a l => rfl
  simp only [MakeSpellActions, hpos, h]
  rfl

theorem find_first_of_none {s : List Nat} {c : Nat} :
    find_first_of s c = none ↔ c ∉ s := by
  induction s with
  | nil => simp [find_first_of]
  | cons b l ih =>
    by_cases hb : b = c
    · simp [find_first_of, hb]
    · have hcb : ¬ c = b := fun h => hb h.symm
      simp [find_first_of, hb, hcb, ih]

/-- Claim C13 (action synthesis): for a diagnostic whose tag has non-empty text after its
first `|`, `MakeSpellActions` appends one action per suggestion with a non-empty term, in
the order of the ranker; each action has the same string as title, as command title and as
third command argument, the command name `emmylua.spell.correct`, the command arguments
document uri, serialized range of the diagnostic and term, and the kind `QuickFix`. -/
theorem C13_action_synthesis (GetSuggests : List Nat → List SuggestItem)
    (result : vscode.CodeActionResult) (diagnostic : vscode.Diagnostic) (uri : List Nat)
    (pos : Nat) (hpos : find_first_of diagnostic.data 124 = some pos)
    (hne : diagnostic.data.drop (pos + 1) ≠ []) :
    (MakeSpellActions GetSuggests result diagnostic uri).1.actions =
      result.actions ++
        ((GetSuggests ((diagnostic.data.drop (pos + 1)).map tolowerByte)).filter
          (fun s => !s.Term.isEmpty)).map (fun s =>
            { title := spellTerm
                (isupper (((diagnostic.data.drop (pos + 1)).headD 0 % 256 : Nat) : Int)) s.Term
              command :=
                { title := spellTerm
                    (isupper (((diagnostic.data.drop (pos + 1)).headD 0 % 256 : Nat) : Int))
                    s.Term
                  command := bytes "emmylua.spell.correct"
                  arguments := [vscode.Argument.text uri, diagnostic.range.Serialize,
                    vscode.Argument.text (spellTerm
                      (isupper (((diagnostic.data.drop (pos + 1)).headD 0 % 256 : Nat) : Int))
                      s.Term)] }
              kind := vscode.CodeActionKind.QuickFix }) := by
  rw [MakeSpellActions_eq GetSuggests result diagnostic uri pos hpos hne]
  exact MakeSpellActionsBody_foldl _ diagnostic uri _ result

theorem C13_action_synthesis_witness :
    find_first_of (bytes "emmylua.spell|wrold") 124 = some 13 ∧
    (bytes "emmylua.spell|wrold").drop (13 + 1) ≠ [] ∧
    (MakeSpellActions (fun _ => [⟨bytes "world"⟩, ⟨[]⟩, ⟨bytes "would"⟩]) ⟨[]⟩
        ⟨⟨⟨1, 2⟩, ⟨1, 7⟩⟩, bytes "typo", vscode.DiagnosticSeverity.Information,
          bytes "emmylua.spell|wrold"⟩ (bytes "file:///a.lua")).1.actions =
      [⟨bytes "world", ⟨bytes "world", bytes "emmylua.spell.correct",
          [vscode.Argument.text (bytes "file:///a.lua"),
            vscode.Argument.range ⟨⟨1, 2⟩, ⟨1, 7⟩⟩,
            vscode.Argument.text (bytes "world")]⟩, vscode.CodeActionKind.QuickFix⟩,
       ⟨bytes "would", ⟨bytes "would", bytes "emmylua.spell.correct",
          [vscode.Argument.text (bytes "file:///a.lua"),
            vscode.Argument.range ⟨⟨1, 2⟩, ⟨1, 7⟩⟩,
            vscode.Argument.text (bytes "would")]⟩, vscode.CodeActionKind.QuickFix⟩] :=
  ⟨by decide, by decide,
    C13_action_synthesis (fun _ => [⟨bytes "world"⟩, ⟨[]⟩, ⟨bytes "would"⟩]) ⟨[]⟩
      ⟨⟨⟨1, 2⟩, ⟨1, 7⟩⟩, bytes "typo", vscode.DiagnosticSeverity.Information,
        bytes "emmylua.spell|wrold"⟩ (bytes "file:///a.lua") 13 (by decide) (by decide)⟩

/-- Claim C14 (capitalization is preserved): for a diagnostic whose tag has non-empty text
after its first `|`, the terms of the actions that `MakeSpellActions` appends (their titles)
are, in order, the non-empty terms of the suggestions; when the first character of that
text is an uppercase letter each term has its first character passed through `toupper` and
all its other characters unchanged, otherwise each term is unchanged. -/
theorem C14_capitalization (GetSuggests : List Nat → List SuggestItem)
    (result : vscode.CodeActionResult) (diagnostic : vscode.Diagnostic) (uri : List Nat)
    (pos : Nat) (hpos : find_first_of diagnostic.data 124 = some pos)
    (hne : diagnostic.data.drop (pos + 1) ≠ []) :
    ((MakeSpellActions GetSuggests result diagnostic uri).1.actions.drop
        result.actions.length).map (fun a => a.title) =
      ((GetSuggests ((diagnostic.data.drop (pos + 1)).map tolowerByte)).filter
        (fun s => !s.Term.isEmpty)).map (fun s =>
          if isupper (((diagnostic.data.drop (pos + 1)).headD 0 % 256 : Nat) : Int) = true
          then toupperByte (s.Term.headD 0) :: s.Term.tail
          else s.Term) := by
  rw [MakeSpellActions_eq GetSuggests result diagnostic uri pos hpos hne]
  simp only [MakeSpellActionsBody_foldl, List.drop_left, List.map_map]
  apply List.map_congr_left
  intro s _
  cases isupper (((diagnostic.data.drop (pos + 1)).headD 0 % 256 : Nat) : Int) <;>
    simp [spellTerm]

theorem C14_capitalization_witness :
    find_first_of (bytes "spell|Wrold") 124 = some 5 ∧
    (bytes "spell|Wrold").drop (5 + 1) ≠ [] ∧
    (MakeSpellActions (fun _ => [⟨bytes "world"⟩]) ⟨[]⟩
        ⟨⟨⟨1, 2⟩, ⟨1, 7⟩⟩, bytes "typo", vscode.DiagnosticSeverity.Information,
          bytes "spell|Wrold"⟩ (bytes "file:///a.lua")).1 =
      ⟨[⟨bytes "World", ⟨bytes "World", bytes "emmylua.spell.correct",
          [vscode.Argument.text (bytes "file:///a.lua"),
            vscode.Argument.range ⟨⟨1, 2⟩, ⟨1, 7⟩⟩,
            vscode.Argument.text (bytes "World")]⟩, vscode.CodeActionKind.QuickFix⟩]⟩ ∧
    ((MakeSpellActions (fun _ => [⟨bytes "world"⟩]) ⟨[]⟩
        ⟨⟨⟨1, 2⟩, ⟨1, 7⟩⟩, bytes "typo", vscode.DiagnosticSeverity.Information,
          bytes "spell|Wrold"⟩ (bytes "file:///a.lua")).1.actions.drop 0).map
        (fun a => a.title) = [bytes "World"] :=
  ⟨by decide, by decide, by decide,
    C14_capitalization (fun _ => [⟨bytes "world"⟩]) ⟨[]⟩
      ⟨⟨⟨1, 2⟩, ⟨1, 7⟩⟩, bytes "typo", vscode.DiagnosticSeverity.Information,
        bytes "spell|Wrold"⟩ (bytes "file:///a.lua") 5 (by decide) (by decide)⟩

/-- Claim C15 (malformed-tag safety): for a diagnostic whose tag has no `|`, or has no text
after its first `|`, `MakeSpellActions` leaves the action list as it is and does not call
the ranker. -/
theorem C15_malformed_tag (GetSuggests : List Nat → List SuggestItem)
    (result : vscode.CodeActionResult) (diagnostic : vscode.Diagnostic) (uri : List Nat)
    (h : 124 ∉ diagnostic.data ∨
      ∃ pos, find_first_of diagnostic.data 124 = some pos ∧
        diagnostic.data.drop (pos + 1) = []) :
    MakeSpellActions GetSuggests result diagnostic uri = (result, []) := by
  rcases h with h | ⟨pos, hpos, hemp⟩
  · simp [MakeSpellActions, find_first_of_none.mpr h]
  · simp [MakeSpellActions, hpos, hemp]

theorem C15_malformed_tag_witness :
    (124 ∉ bytes "format" ∨
      ∃ pos, find_first_of (bytes "format") 124 = some pos ∧
        (bytes "format").drop (pos + 1) = []) ∧
    MakeSpellActions (fun _ => [⟨bytes "world"⟩]) ⟨[]⟩
        ⟨⟨⟨1, 2⟩, ⟨1, 7⟩⟩, [], vscode.DiagnosticSeverity.Warning, bytes "format"⟩ [] =
      (⟨[]⟩, []) ∧
    MakeSpellActions (fun _ => [⟨bytes "world"⟩]) ⟨[]⟩
        ⟨⟨⟨1, 2⟩, ⟨1, 7⟩⟩, [], vscode.DiagnosticSeverity.Information, bytes "spell|"⟩ [] =
      (⟨[]⟩, []) :=
  ⟨Or.inl (by decide),
    C15_malformed_tag (fun _ => [⟨bytes "world"⟩]) ⟨[]⟩
      ⟨⟨⟨1, 2⟩, ⟨1, 7⟩⟩, [], vscode.DiagnosticSeverity.Warning, bytes "format"⟩ []
      (Or.inl (by decide)),
    C15_malformed_tag (fun _ => [⟨bytes "world"⟩]) ⟨[]⟩
      ⟨⟨⟨1, 2⟩, ⟨1, 7⟩⟩, [], vscode.DiagnosticSeverity.Information, bytes "spell|"⟩ []
      (Or.inr ⟨5, by decide, by decide⟩)⟩

theorem find_first_of_append (a : List Nat) (c : Nat) (rest : List Nat) (h : c ∉ a) :
    find_first_of (a ++ c :: rest) c = some a.length := by
  induction a with
  | nil => simp [find_first_of]
  | cons b l ih =>
    have hb : ¬ b = c := fun hbc => h (by simp [hbc])
    have hl : c ∉ l := fun hc => h (List.mem_cons_of_mem _ hc)
    simp [find_first_of, hb, ih hl]

/-- Claim C16 (payload round trip), the code at the empty payload: the ranker is not called
at all, so it is not called with the lowercase of the payload. -/
theorem C16_round_trip_counterexample :
    (MakeSpellActions (fun _ => []) ⟨[]⟩
        (DiagnoseBody ⟨[], ⟨⟨0, 0⟩, ⟨0, 1⟩⟩, DiagnosisType.Spell, []⟩) []).2 = [] ∧
    (MakeSpellActions (fun _ => []) ⟨[]⟩
        (DiagnoseBody ⟨[], ⟨⟨0, 0⟩, ⟨0, 1⟩⟩, DiagnosisType.Spell, []⟩) []).2 ≠
      [([] : List Nat).map tolowerByte] := by
  decide

/-- Claim C16 (payload round trip), as amended: for a `Spell` record with payload `p`, also
one that contains `|`, the text after the first `|` of the tag of the projected diagnostic
is exactly `p`; when `p` is not empty `MakeSpellActions` calls the ranker once, with the
lowercase of `p`, and when `p` is empty it does not call the ranker. -/
theorem C16_round_trip (GetSuggests : List Nat → List SuggestItem)
    (result : vscode.CodeActionResult) (uri : List Nat) (r : LuaDiagnosisInfo)
    (hr : r.type = DiagnosisType.Spell) :
    (∃ pos, find_first_of (DiagnoseBody r).data 124 = some pos ∧
      (DiagnoseBody r).data.drop (pos + 1) = r.Data) ∧
    (r.Data ≠ [] →
      (MakeSpellActions GetSuggests result (DiagnoseBody r) uri).2 =
        [r.Data.map tolowerByte]) ∧
    (r.Data = [] → (MakeSpellActions GetSuggests result (DiagnoseBody r) uri).2 = []) := by
  have hd : (DiagnoseBody r).data = bytes "emmylua.spell" ++ 124 :: r.Data := by
    rw [DiagnoseBody_data, hr]
    simp [bytes_spell, bytes_spell_bar]
  have hpos := find_first_of_append (bytes "emmylua.spell") 124 r.Data (by decide)
  rw [← hd] at hpos
  have hdrop : (DiagnoseBody r).data.drop ((bytes "emmylua.spell").length + 1) = r.Data := by
    rw [hd, show bytes "emmylua.spell" ++ 124 :: r.Data =
      (bytes "emmylua.spell" ++ [124]) ++ r.Data by simp]
    exact List.drop_left' (by simp)
  refine ⟨⟨_, hpos, hdrop⟩, ?_, ?_⟩
  · intro hne
    rw [MakeSpellActions_eq GetSuggests result _ uri _ hpos (by rw [hdrop]; exact hne), hdrop]
  · intro hemp
    simp [MakeSpellActions, hpos, hdrop, hemp]

theorem C16_round_trip_witness :
    (⟨[], ⟨⟨0, 0⟩, ⟨0, 1⟩⟩, DiagnosisType.Spell, bytes "a|B"⟩ : LuaDiagnosisInfo).type =
      DiagnosisType.Spell ∧
    (MakeSpellActions (fun _ => []) ⟨[]⟩
        (DiagnoseBody ⟨[], ⟨⟨0, 0⟩, ⟨0, 1⟩⟩, DiagnosisType.Spell, bytes "a|B"⟩) []).2 =
      [bytes "a|b"] :=
  ⟨rfl, (C16_round_trip (fun _ => []) ⟨[]⟩ []
    ⟨[], ⟨⟨0, 0⟩, ⟨0, 1⟩⟩, DiagnosisType.Spell, bytes "a|B"⟩ rfl).2.1 (by decide)⟩

/-! ## The word splitter, continued -/

/-- Where `Parse` leaves the parser: at a byte that is neither alphanumeric nor an underscore,
with an empty word list, or at the end of the identifier. -/
theorem ParseLoop_final (identifier : List Nat) (fuel : Nat) (p r : IdentifyParser)
    (hp : p._source = identifier ∧ p._currentIndex ≤ identifier.length)
    (h : ParseLoop fuel p p._currentIndex = some r) :
    r._source = identifier ∧
      ((r._currentIndex < identifier.length ∧
          isGood (charAt identifier r._currentIndex) = false ∧ r._words = []) ∨
        identifier.length ≤ r._currentIndex) := by
  refine ParseLoop_rule
    (fun q => q._source = identifier ∧ q._currentIndex ≤ identifier.length)
    (fun q => q._source = identifier ∧
      ((q._currentIndex < identifier.length ∧
          isGood (charAt identifier q._currentIndex) = false ∧ q._words = []) ∨
        identifier.length ≤ q._currentIndex)) ?_ ?_ fuel p r hp h
  · intro q q1 s1 ⟨hsrc, hidx⟩ hs
    have h1 := ParseStep_continue q _ q1 s1 hs
    exact ⟨h1.2.2.1.trans hsrc, by
      have := h1.2.1
      rw [h1.2.2.1, hsrc] at this
      exact this⟩
  · intro q q1 ⟨hsrc, hidx⟩ hs
    have hL : q._source.length = identifier.length := congrArg List.length hsrc
    obtain ⟨i1, hle, _, hcase⟩ := ParseStep_cases q q._currentIndex (by omega)
    rcases hcase with h1 | h1 | h1 | h1 | h1
    · rw [h1.1] at hs
      simp only [Option.some.injEq, ParseStepResult.done.injEq] at hs
      rw [← hs]
      exact ⟨hsrc, Or.inl ⟨by rw [← hL]; exact h1.2.1, by rw [← hsrc]; exact h1.2.2, rfl⟩⟩
    · rw [h1.1] at hs; simp at hs
    · rw [h1.1] at hs
      simp only [Option.some.injEq, ParseStepResult.done.injEq] at hs
      rw [← hs]
      exact ⟨hsrc, Or.inr (by show identifier.length ≤ i1; omega)⟩
    · rw [h1.1] at hs; simp at hs
    · rw [h1.1] at hs
      simp only [Option.some.injEq, ParseStepResult.done.injEq] at hs
      rw [← hs]
      exact ⟨hsrc, Or.inr (by show identifier.length ≤ i1; omega)⟩

/-- A `Parse` that starts at the end of the identifier returns at once and changes nothing. -/
theorem Parse_at_end (r : IdentifyParser) (h : r._source.length ≤ r._currentIndex) :
    r.Parse = some r := by
  have hch : charAt r._source r._currentIndex = EOZ := (charAt_eoz_iff _ _).mpr h
  have hlex : r.Lex = some (IdentifyType.End, r) := by
    simp only [IdentifyParser.Lex]
    rw [LexLoop]
    simp [GetCurrentChar_eq, hch]
  simp only [IdentifyParser.Parse]
  rw [ParseLoop]
  simp [ParseStep, hlex]

/-- A `Parse` that starts at a byte that is neither alphanumeric nor an underscore clears the
word list and returns at once. -/
theorem Parse_at_bad (r : IdentifyParser) (h : r._currentIndex < r._source.length)
    (hbad : isGood (charAt r._source r._currentIndex) = false) :
    r.Parse = some { r with _words := [] } := by
  have h1 : charAt r._source r._currentIndex ≠ EOZ := fun hc => by
    have := (charAt_eoz_iff _ _).mp hc; omega
  simp only [isGood, Bool.or_eq_false_iff, decide_eq_false_iff_not] at hbad
  have hlex : r.Lex = some (IdentifyType.Unicode, r) ∨ r.Lex = some (IdentifyType.Unknown, r) := by
    simp only [IdentifyParser.Lex]
    rw [LexLoop]
    simp only [GetCurrentChar_eq, h1, hbad.2, if_false]
    by_cases h3 : charAt r._source r._currentIndex > CHAR_MAX
    · exact Or.inl (by simp [h3])
    · exact Or.inr (by simp [h3, hbad.1])
  simp only [IdentifyParser.Parse]
  rw [ParseLoop]
  rcases hlex with hlex | hlex <;> simp [ParseStep, hlex]

/-- Claim C17 (idempotence of `Parse` on the parser state): `Parse` returns on every
identifier, and a second `Parse` on the state that the first one leaves (same scan
position, same word list) returns that very state, so the word list is the same. -/
theorem C17_idempotent (identifier : List Nat) :
    ∃ r, (IdentifyParser.new identifier).Parse = some r ∧ r.Parse = some r ∧
      r.Parse.map IdentifyParser.GetWords = split identifier := by
  obtain ⟨r, hr⟩ := Parse_new_total identifier
  have hfin := ParseLoop_final identifier _ (IdentifyParser.new identifier) r
    ⟨rfl, Nat.zero_le _⟩ (by rw [← Parse_new_eq]; exact hr)
  have hrr : r.Parse = some r := by
    rcases hfin.2 with ⟨h1, h2, h3⟩ | h1
    · have := Parse_at_bad r (by rw [hfin.1]; exact h1) (by rw [hfin.1]; exact h2)
      rw [this, ← h3]
    · exact Parse_at_end r (by rw [hfin.1]; exact h1)
  exact ⟨r, hr, hrr, by rw [hrr, split, hr]⟩

theorem tolowerByte_of_islower {b : Nat} (h : islower ((b % 256 : Nat) : Int) = true) :
    islower ((tolowerByte b : Nat) : Int) = true := by
  have h0 := h
  simp only [islower, Bool.and_eq_true, decide_eq_true_eq] at h0
  have hu : isupper ((b % 256 : Nat) : Int) = false := (islower_facts h).2.2.2.2.2
  simp only [tolowerByte, tolower, hu, Bool.false_eq_true, if_false, Int.toNat_ofNat]
  exact h

theorem tolowerByte_of_isupper {b : Nat} (h : isupper ((b % 256 : Nat) : Int) = true) :
    islower ((tolowerByte b : Nat) : Int) = true := by
  have h0 := h
  simp only [isupper, Bool.and_eq_true, decide_eq_true_eq] at h0
  simp only [tolowerByte, tolower, h, if_true, islower, Bool.and_eq_true, decide_eq_true_eq]
  omega

/-- The slice of a source is the list of its bytes at the positions of the slice. -/
theorem mem_slice {src : List Nat} {a n : Nat} {x : Nat}
    (hx : x ∈ (src.drop a).take n) :
    ∃ k, a ≤ k ∧ k < a + n ∧ k < src.length ∧ charAt src k = ((x % 256 : Nat) : Int) := by
  obtain ⟨k, hk, hxk⟩ := List.getElem_of_mem hx
  rw [List.length_take, List.length_drop] at hk
  rw [List.getElem_take, List.getElem_drop] at hxk
  have hlt : a + k < src.length := by omega
  exact ⟨a + k, by omega, by omega, hlt, by rw [charAt_of_getElem src _ hlt, hxk]⟩

theorem isLowerRun_slice {src : List Nat} {a b : Nat} (h : AllIn islower src a b) :
    isLowerRun ((src.drop a).take (b - a)) = true := by
  simp only [isLowerRun, List.all_eq_true]
  intro x hx
  obtain ⟨k, h1, h2, _, h4⟩ := mem_slice hx
  rw [← h4]
  exact h k h1 (by omega)

/-- A slice of the source of the shape `WordShape` is a word as a list of bytes. -/
theorem isWord_slice {src : List Nat} {a b : Nat} (h : WordShape src a b) :
    isWord ((src.drop a).take (b - a)) = true := by
  have hb := WordShape_le_length h
  rcases h with ⟨h1, h2⟩ | ⟨h1, h2, h3⟩
  · have hne : ((src.drop a).take (b - a)).isEmpty = false := by
      rw [List.isEmpty_eq_false]
      intro hc
      have := congrArg List.length hc
      rw [List.length_take, List.length_drop] at this
      simp only [List.length_nil] at this
      omega
    simp [isWord, hne, isLowerRun_slice h2]
  · have ha : a < src.length := by omega
    have hsl : (src.drop a).take (b - a) = src[a] :: (src.drop (a + 1)).take (b - (a + 1)) := by
      rw [List.drop_eq_getElem_cons ha, show b - a = (b - (a + 1)) + 1 by omega,
        List.take_succ_cons]
    have htl := isLowerRun_slice h3
    have hlen : ((src.drop (a + 1)).take (b - (a + 1))).length = b - (a + 1) := by
      rw [List.length_take, List.length_drop]; omega
    rw [hsl]
    match hm : (src.drop (a + 1)).take (b - (a + 1)), hlen, htl with
    | [], hlen, _ => simp only [List.length_nil] at hlen; omega
    | d :: l, _, htl =>
      have hc : isupper ((src[a] % 256 : Nat) : Int) = true := by
        rw [← charAt_of_getElem src a ha]; exact h2
      simp only [isWord, isCapWord, hc, htl, Bool.and_self, Bool.or_true]

theorem isWord_map_tolowerByte {w : List Nat} (h : isWord w = true) :
    ∀ b ∈ w.map tolowerByte, islower ((b : Nat) : Int) = true := by
  intro b hb
  obtain ⟨x, hx, rfl⟩ := List.mem_map.mp hb
  simp only [isWord, Bool.or_eq_true, Bool.and_eq_true] at h
  rcases h with ⟨_, hrun⟩ | hcap
  · simp only [isLowerRun, List.all_eq_true] at hrun
    exact tolowerByte_of_islower (hrun x hx)
  · match w, hcap, hx with
    | c :: d :: l, hcap, hx =>
      simp only [isCapWord, Bool.and_eq_true, isLowerRun, List.all_eq_true] at hcap
      rcases List.mem_cons.mp hx with h1 | h1
      · rw [h1]; exact tolowerByte_of_isupper hcap.1
      · exact tolowerByte_of_islower (hcap.2 x h1)

/-- The invariant of the loop of `Parse` behind the shape of the words: every word pushed
so far is the word built for a slice of the shape `WordShape`. -/
theorem ParseLoop_shape (identifier : List Nat) (fuel : Nat) (p r : IdentifyParser)
    (hp : p._source = identifier ∧ p._currentIndex ≤ identifier.length ∧
      ∀ w ∈ p._words, ∃ s e, w = mkWord identifier s e ∧ WordShape identifier s e)
    (h : ParseLoop fuel p p._currentIndex = some r) :
    ∀ w ∈ r._words, ∃ s e, w = mkWord identifier s e ∧ WordShape identifier s e := by
  refine ParseLoop_rule
    (fun q => q._source = identifier ∧ q._currentIndex ≤ identifier.length ∧
      ∀ w ∈ q._words, ∃ s e, w = mkWord identifier s e ∧ WordShape identifier s e)
    (fun q => ∀ w ∈ q._words, ∃ s e, w = mkWord identifier s e ∧ WordShape identifier s e)
    ?_ ?_ fuel p r hp h
  · intro q q1 s1 ⟨hsrc, hidx, hws⟩ hs
    have hL : q._source.length = identifier.length := congrArg List.length hsrc
    obtain ⟨i1, hle, _, hcase⟩ := ParseStep_cases q q._currentIndex (by omega)
    rcases hcase with h1 | h1 | h1 | h1 | h1
    · rw [h1.1] at hs; simp at hs
    · rw [h1.1] at hs
      simp only [Option.some.injEq, ParseStepResult.again.injEq] at hs
      rw [← hs.1]
      refine ⟨hsrc, by have := h1.2.1; show i1 ≤ _; omega, ?_⟩
      intro w hw
      rcases List.mem_append.mp hw with h2 | h2
      · exact hws w h2
      · rw [List.mem_singleton] at h2
        exact ⟨q._currentIndex, i1, by rw [h2, hsrc], by rw [← hsrc]; exact h1.2.2.1⟩
    · rw [h1.1] at hs; simp at hs
    · rw [h1.1] at hs
      simp only [Option.some.injEq, ParseStepResult.again.injEq] at hs
      rw [← hs.1]
      exact ⟨hsrc, by have := h1.2.1; show i1 + 1 ≤ _; omega, hws⟩
    · rw [h1.1] at hs; simp at hs
  · intro q q1 ⟨hsrc, hidx, hws⟩ hs
    have hL : q._source.length = identifier.length := congrArg List.length hsrc
    obtain ⟨i1, hle, _, hcase⟩ := ParseStep_cases q q._currentIndex (by omega)
    rcases hcase with h1 | h1 | h1 | h1 | h1
    · rw [h1.1] at hs
      simp only [Option.some.injEq, ParseStepResult.done.injEq] at hs
      rw [← hs]
      intro w hw
      simp at hw
    · rw [h1.1] at hs; simp at hs
    · rw [h1.1] at hs
      simp only [Option.some.injEq, ParseStepResult.done.injEq] at hs
      rw [← hs]
      intro w hw
      rcases List.mem_append.mp hw with h2 | h2
      · exact hws w h2
      · rw [List.mem_singleton] at h2
        exact ⟨q._currentIndex, i1, by rw [h2, hsrc], by rw [← hsrc]; exact h1.2.2⟩
    · rw [h1.1] at hs; simp at hs
    · rw [h1.1] at hs
      simp only [Option.some.injEq, ParseStepResult.done.injEq] at hs
      rw [← hs]
      exact hws

/-- Claim C18 (shape of every emitted sub-word): `split` returns, and every sub-word it
returns is non-empty, has a text of lowercase ASCII letters only, and names a slice of the
identifier that is one or more lowercase letters, or one uppercase letter followed by one
or more lowercase letters. -/
theorem C18_word_shape (identifier : List Nat) :
    ∃ ws, split identifier = some ws ∧
      ∀ w ∈ ws, 0 < w.Range.Count ∧ w.Item ≠ [] ∧
        (∀ b ∈ w.Item, islower ((b : Nat) : Int) = true) ∧
        isWord ((identifier.drop w.Range.Start).take w.Range.Count) = true := by
  obtain ⟨r, hr⟩ := Parse_new_total identifier
  refine ⟨r._words, split_of_Parse hr, ?_⟩
  intro w hw
  obtain ⟨s, e, rfl, hshape⟩ := ParseLoop_shape identifier _ (IdentifyParser.new identifier) r
    ⟨rfl, Nat.zero_le _, by intro w hw; simp [IdentifyParser.new] at hw⟩
    (by rw [← Parse_new_eq]; exact hr) w hw
  have hlt := WordShape_lt hshape
  have hword := isWord_slice hshape
  refine ⟨by simp only [mkWord]; omega, ?_, isWord_map_tolowerByte hword, hword⟩
  simp only [mkWord, ne_eq, List.map_eq_nil_iff]
  exact isWord_ne_nil hword

theorem isdigit_facts {ch : Int} (h : isdigit ch = true) :
    ch ≠ EOZ ∧ ch ≠ 95 ∧ ¬ (ch > CHAR_MAX) ∧ isalnum ch = true ∧ isupper ch = false ∧
      islower ch = false := by
  have h0 := h
  simp only [isdigit, Bool.and_eq_true, decide_eq_true_eq] at h0
  refine ⟨by unfold EOZ; omega, by omega, by unfold CHAR_MAX; omega, by simp [isalnum, h], ?_, ?_⟩
  · simp only [isupper, Bool.and_eq_false_iff, decide_eq_false_iff_not]; omega
  · simp only [islower, Bool.and_eq_false_iff, decide_eq_false_iff_not]; omega

theorem isalnum_facts {ch : Int} (h : isalnum ch = true) :
    ch ≠ EOZ ∧ ch ≠ 95 ∧ ¬ (ch > CHAR_MAX) := by
  simp only [isalnum, Bool.or_eq_true] at h
  rcases h with (h | h) | h
  · exact ⟨(isdigit_facts h).1, (isdigit_facts h).2.1, (isdigit_facts h).2.2.1⟩
  · exact ⟨(isupper_facts h).1, (isupper_facts h).2.1, (isupper_facts h).2.2.1⟩
  · exact ⟨(islower_facts h).1, (islower_facts h).2.1, (islower_facts h).2.2.1⟩

/-- The loop of `Lex` in state `Number` runs to the end of a run of digits and returns
`Ignore` at the alphanumeric character that follows, without consuming it. -/
theorem LexLoop_number (l : List Nat) (c : Nat) (t : List Nat) (ws : List Word)
    (src : List Nat) (start : Nat)
    (hc1 : isalnum ((c % 256 : Nat) : Int) = true)
    (hc2 : isdigit ((c % 256 : Nat) : Int) = false) :
    ∀ (fuel i : Nat), src.drop i = l ++ c :: t → isDigitRun l = true → l.length < fuel →
      LexLoop fuel ⟨src, i, ws⟩ ParseState.Number start =
        some (IdentifyType.Ignore, ⟨src, i + l.length, ws⟩) := by
  induction l with
  | nil =>
    intro fuel i hdrop _ hfuel
    obtain ⟨n, rfl⟩ : ∃ n, fuel = n + 1 := ⟨fuel - 1, by simp at hfuel; omega⟩
    rw [LexLoop]
    simp only [List.nil_append] at hdrop
    obtain ⟨_, hch, _⟩ := drop_cons_view hdrop
    rw [← hch] at hc1 hc2
    obtain ⟨h1, h2, h3⟩ := isalnum_facts hc1
    simp only [GetCurrentChar_eq, h1, h2, h3, hc1, hc2, if_false, Bool.not_true,
      Bool.false_eq_true, List.length_nil, Nat.add_zero]
  | cons b l ih =>
    intro fuel i hdrop hrun hfuel
    obtain ⟨n, rfl⟩ : ∃ n, fuel = n + 1 := ⟨fuel - 1, by simp at hfuel; omega⟩
    rw [LexLoop]
    obtain ⟨_, hch, hnext⟩ := drop_cons_view (t := l ++ c :: t) hdrop
    simp only [isDigitRun, List.all_cons, Bool.and_eq_true] at hrun
    have hb := hrun.1
    rw [← hch] at hb
    obtain ⟨h1, h2, h3, h4, _, _⟩ := isdigit_facts hb
    simp only [GetCurrentChar_eq, h1, h2, h3, h4, hb, if_false, if_true, Bool.not_true,
      Bool.false_eq_true]
    rw [ih n (i + 1) hnext hrun.2 (by simp at hfuel; omega)]
    simp only [List.length_cons]
    congr 3
    omega

/-- One `Lex` call on a run of digits followed by an alphanumeric character that is not a
digit: the call returns `Ignore` with the scan position at that character. -/
theorem Lex_digits (d : List Nat) (c : Nat) (t : List Nat) (ws : List Word) (src : List Nat)
    (i : Nat) (hne : d ≠ []) (hd : isDigitRun d = true)
    (hc1 : isalnum ((c % 256 : Nat) : Int) = true)
    (hc2 : isdigit ((c % 256 : Nat) : Int) = false)
    (hdrop : src.drop i = d ++ c :: t) :
    IdentifyParser.Lex ⟨src, i, ws⟩ = some (IdentifyType.Ignore, ⟨src, i + d.length, ws⟩) := by
  have hlen := drop_length_view hdrop
  rw [List.length_append] at hlen
  obtain ⟨b, l, rfl⟩ := List.exists_cons_of_ne_nil hne
  obtain ⟨_, hch, hnext⟩ := drop_cons_view (t := l ++ c :: t) hdrop
  simp only [isDigitRun, List.all_cons, Bool.and_eq_true] at hd
  have hb := hd.1
  rw [← hch] at hb
  obtain ⟨h1, h2, h3, h4, _, _⟩ := isdigit_facts hb
  simp only [IdentifyParser.Lex]
  rw [LexLoop]
  simp only [GetCurrentChar_eq, h1, h2, h3, h4, hb, if_false, if_true, Bool.not_true,
    Bool.false_eq_true]
  rw [LexLoop_number l c t ws src i hc1 hc2 _ (i + 1) hnext hd.2
    (by simp only [List.length_cons] at hlen; omega)]
  simp only [List.length_cons]
  congr 3
  omega

theorem ParseStep_of_Ignore (p p1 : IdentifyParser) (start : Nat)
    (h : p.Lex = some (IdentifyType.Ignore, p1)) :
    ParseStep p start = some (ParseStepResult.again
      { p1 with _currentIndex := p1._currentIndex + 1 } (p1._currentIndex + 1)) := by
  simp [ParseStep, h]

/-- Claim C19 (the character right after a digit run is dropped): for a non-empty run `u`
of lowercase letters, a non-empty run `d` of digits and a run `v` of at least two lowercase
letters, `split (u ++ d ++ v)` returns two sub-words: `u` at offset 0, and `v` without its
first character, at the offset one past the first character of `v`. -/
theorem C19_char_after_digits (u d v : List Nat)
    (hu : u ≠ []) (hul : isLowerRun u = true) (hd : d ≠ []) (hdr : isDigitRun d = true)
    (hvl : isLowerRun v = true) (hv : 2 ≤ v.length) :
    split (u ++ d ++ v) =
      some [{ Range := { Start := 0, Count := u.length }, Item := u.map tolowerByte },
            { Range := { Start := u.length + d.length + 1, Count := v.length - 1 },
              Item := v.tail.map tolowerByte }] := by
  obtain ⟨d0, dl, rfl⟩ := List.exists_cons_of_ne_nil hd
  match v, hvl, hv with
  | v0 :: v1 :: vt, hvl, _ =>
    have hd0 : isdigit ((d0 % 256 : Nat) : Int) = true := by
      simp only [isDigitRun, List.all_cons, Bool.and_eq_true] at hdr
      exact hdr.1
    have hv0 : islower ((v0 % 256 : Nat) : Int) = true := by
      simp only [isLowerRun, List.all_cons, Bool.and_eq_true] at hvl
      exact hvl.1
    have hvt : isLowerRun (v1 :: vt) = true := by
      simp only [isLowerRun, List.all_cons, Bool.and_eq_true] at hvl ⊢
      exact hvl.2
    have huw : isWord u = true := by
      simp [isWord, hul, hu]
    have hvw : isWord (v1 :: vt) = true := by
      simp [isWord, hvt]
    -- the source, cut where the three `Lex` calls end
    have hsrc1 : u ++ (d0 :: dl) ++ (v0 :: v1 :: vt) =
        [] ++ (u ++ ((d0 :: dl) ++ (v0 :: v1 :: vt))) := by simp
    have hsrc3 : u ++ (d0 :: dl) ++ (v0 :: v1 :: vt) =
        (u ++ (d0 :: dl) ++ [v0]) ++ ((v1 :: vt) ++ []) := by simp
    -- first call: the word `u`, ended by the first digit
    have hlex1 := Lex_word u ((d0 :: dl) ++ (v0 :: v1 :: vt)) []
      (u ++ (d0 :: dl) ++ (v0 :: v1 :: vt)) 0 huw
      (Or.inr ⟨d0, dl ++ (v0 :: v1 :: vt), rfl, (isdigit_facts hd0).2.2.2.1,
        (isdigit_facts hd0).2.2.2.2.2⟩) (by simp)
    rw [if_neg (by simp)] at hlex1
    -- second call: the digits, ended by the first letter of `v`
    have hlex2 := Lex_digits (d0 :: dl) v0 (v1 :: vt)
      [mkWord (u ++ (d0 :: dl) ++ (v0 :: v1 :: vt)) 0 (0 + u.length)]
      (u ++ (d0 :: dl) ++ (v0 :: v1 :: vt)) (0 + u.length) (List.cons_ne_nil _ _) hdr
      (islower_facts hv0).2.2.2.1 (islower_facts hv0).2.2.2.2.1 (by simp)
    -- third call: the rest of `v`, to the end of the identifier
    have hlex3 := Lex_word (v1 :: vt) [] 
      [mkWord (u ++ (d0 :: dl) ++ (v0 :: v1 :: vt)) 0 (0 + u.length)]
      (u ++ (d0 :: dl) ++ (v0 :: v1 :: vt)) (0 + u.length + (d0 :: dl).length + 1) hvw
      (Or.inl rfl) (by
        have : 0 + u.length + (d0 :: dl).length + 1 = (u ++ (d0 :: dl) ++ [v0]).length := by
          simp only [List.length_append, List.length_cons, List.length_nil]; omega
        rw [this, hsrc3, List.drop_left])
    rw [if_pos rfl] at hlex3
    have hmk1 : mkWord (u ++ (d0 :: dl) ++ (v0 :: v1 :: vt)) 0 (0 + u.length) =
        { Range := { Start := 0, Count := u.length }, Item := u.map tolowerByte } := by
      have := mkWord_append [] u ((d0 :: dl) ++ (v0 :: v1 :: vt))
      simp only [List.nil_append, List.length_nil] at this
      rw [← this]
      simp
    have hmk3 : mkWord (u ++ (d0 :: dl) ++ (v0 :: v1 :: vt))
        (0 + u.length + (d0 :: dl).length + 1)
        (u ++ (d0 :: dl) ++ (v0 :: v1 :: vt)).length =
        { Range := { Start := u.length + (d0 :: dl).length + 1,
                     Count := (v0 :: v1 :: vt).length - 1 },
          Item := (v1 :: vt).map tolowerByte } := by
      have := mkWord_append (u ++ (d0 :: dl) ++ [v0]) (v1 :: vt) []
      rw [← hsrc3] at this
      have hl : (u ++ (d0 :: dl) ++ [v0]).length + (v1 :: vt).length =
          (u ++ (d0 :: dl) ++ (v0 :: v1 :: vt)).length := by
        simp only [List.length_append, List.length_cons, List.length_nil]; omega
      have hs : (u ++ (d0 :: dl) ++ [v0]).length = 0 + u.length + (d0 :: dl).length + 1 := by
        simp only [List.length_append, List.length_cons, List.length_nil]; omega
      rw [hl, hs] at this
      rw [this]
      simp
    have hfuel : ∃ n, (u ++ (d0 :: dl) ++ (v0 :: v1 :: vt)).length + 1 = n + 3 :=
      ⟨(u ++ (d0 :: dl) ++ (v0 :: v1 :: vt)).length - 2, by
        simp only [List.length_append, List.length_cons]; omega⟩
    obtain ⟨n, hn⟩ := hfuel
    simp only [split, IdentifyParser.Parse, IdentifyParser.new, hn]
    rw [ParseLoop, ParseStep_of_Ascii _ _ _ hlex1 (Nat.zero_le _)]
    simp only [List.nil_append]
    rw [ParseLoop, ParseStep_of_Ignore _ _ _ hlex2]
    simp only
    rw [ParseLoop, ParseStep_of_LowerEnd _ _ _ hlex3 (by
      simp only [List.length_append, List.length_cons]; omega)]
    simp only [hmk1, hmk3, Option.map_some', IdentifyParser.GetWords, List.tail_cons,
      List.singleton_append]

theorem C19_char_after_digits_witness :
    bytes "a" ≠ [] ∧ isLowerRun (bytes "a") = true ∧ bytes "1" ≠ [] ∧
    isDigitRun (bytes "1") = true ∧ isLowerRun (bytes "bc") = true ∧
    2 ≤ (bytes "bc").length ∧ bytes "a" ++ bytes "1" ++ bytes "bc" = bytes "a1bc" ∧
    split (bytes "a" ++ bytes "1" ++ bytes "bc") =
      some [⟨⟨0, 1⟩, bytes "a"⟩, ⟨⟨3, 1⟩, bytes "c"⟩] :=
  ⟨by decide, by decide, by decide, by decide, by decide, by decide, by decide,
    C19_char_after_digits (bytes "a") (bytes "1") (bytes "bc") (by decide) (by decide)
      (by decide) (by decide) (by decide) (by decide)⟩

/-- The loop `LexLoop` runs `LexIter` until it returns. -/
theorem LexLoop_iter (fuel : Nat) (p : IdentifyParser) (state : ParseState) (start : Nat) :
    LexLoop (fuel + 1) p state start =
      match LexIter p state start with
      | LexIterResult.next p1 state1 => LexLoop fuel p1 state1 start
      | LexIterResult.ret ty p1 => some (ty, p1) := by
  rw [LexLoop]
  simp only [LexIter]
  split_ifs <;> first | rfl | (cases state <;> rfl)

/-- One iteration of the loop of `Lex` that does not return consumes one byte of the source. -/
theorem LexIter_next {q q1 : IdentifyParser} {st st1 : ParseState} {start : Nat}
    (h : LexIter q st start = LexIterResult.next q1 st1) :
    q1 = { q with _currentIndex := q._currentIndex + 1 } ∧
      q._currentIndex < q._source.length ∧ st1 ≠ ParseState.Unknown := by
  have hlt : q.GetCurrentChar ≠ EOZ → q._currentIndex < q._source.length := by
    intro hne
    by_contra hc
    exact hne ((charAt_eoz_iff _ _).mpr (by omega))
  by_cases h1 : q.GetCurrentChar = EOZ
  · simp only [LexIter, h1, if_true] at h
    split_ifs at h
  · have hq := hlt h1
    by_cases h5 : isalnum q.GetCurrentChar = true
    · simp only [LexIter] at h
      cases st <;> simp only [] at h <;> split_ifs at h <;>
        simp only [LexIterResult.next.injEq] at h <;>
        first
        | exact ⟨h.1.symm, hq, by rw [← h.2]; decide⟩
        | (exfalso
           simp only [isalnum, Bool.or_eq_true] at h5
           tauto)
    · have h5 : isalnum q.GetCurrentChar = false := by simpa using h5
      simp only [LexIter, h1, h5, if_false, Bool.not_false, if_true] at h
      split_ifs at h

/-- At the head of every iteration of the loop of `Parse` the source is the identifier, the
local `start` is the scan position, and the scan position is inside the identifier. -/
theorem ParseReach_inv {identifier : List Nat} {p : IdentifyParser} {start : Nat}
    (h : ParseReach identifier p start) :
    p._source = identifier ∧ start = p._currentIndex ∧
      p._currentIndex ≤ identifier.length := by
  induction h with
  | entry => exact ⟨rfl, rfl, Nat.zero_le _⟩
  | iter p p1 start start1 _ hs ih =>
    have h1 := ParseStep_continue p start p1 start1 hs
    refine ⟨h1.2.2.1.trans ih.1, h1.2.2.2, ?_⟩
    have := h1.2.1
    rw [h1.2.2.1, ih.1] at this
    exact this

/-- At the head of every iteration of the loop of `Lex` the scan position is between the
position of the call and the end of the source, and past the position of the call once the
local `state` has left `Unknown`. -/
theorem LexReach_inv {p0 q : IdentifyParser} {st : ParseState}
    (h0 : p0._currentIndex ≤ p0._source.length) (h : LexReach p0 q st) :
    q._source = p0._source ∧ q._words = p0._words ∧ p0._currentIndex ≤ q._currentIndex ∧
      q._currentIndex ≤ p0._source.length ∧
      (st ≠ ParseState.Unknown → p0._currentIndex < q._currentIndex) := by
  induction h with
  | entry => exact ⟨rfl, rfl, Nat.le_refl _, h0, fun h => absurd rfl h⟩
  | iter q q1 st st1 _ hs ih =>
    obtain ⟨h1, h2, _⟩ := LexIter_next hs
    subst h1
    obtain ⟨i1, i2, i3, i4, _⟩ := ih
    refine ⟨i1, i2, Nat.le_succ_of_le i3, ?_, fun _ => Nat.lt_succ_of_le i3⟩
    show q._currentIndex + 1 ≤ p0._source.length
    rw [← i1]
    exact h2

/-- One iteration of the loop of `Lex` that returns leaves the scan position where it is,
or, in the one case of the rewind, one position back. -/
theorem LexIter_ret {q p1 : IdentifyParser} {st : ParseState} {start : Nat}
    {ty : IdentifyType} (h : LexIter q st start = LexIterResult.ret ty p1) :
    p1 = q ∨ (p1 = { q with _currentIndex := q._currentIndex - 1 } ∧
      st = ParseState.UpperCase ∧ islower q.GetCurrentChar = true ∧
      q._currentIndex - start ≠ 1) := by
  cases st <;> simp only [LexIter] at h <;> split_ifs at h <;>
    first
    | (simp only [LexIterResult.ret.injEq] at h
       exact Or.inl h.2.symm)
    | (simp only [LexIterResult.ret.injEq] at h
       refine Or.inr ⟨h.2.symm, rfl, ?_, ?_⟩ <;> assumption)

/-- The loop of `Lex` returns from an iteration at a reachable state. -/
theorem LexLoop_ret (p0 : IdentifyParser) (fuel : Nat) :
    ∀ (q : IdentifyParser) (st : ParseState) (ty : IdentifyType) (p1 : IdentifyParser),
      LexReach p0 q st → LexLoop fuel q st p0._currentIndex = some (ty, p1) →
      ∃ q1 st1, LexReach p0 q1 st1 ∧
        LexIter q1 st1 p0._currentIndex = LexIterResult.ret ty p1 := by
  induction fuel with
  | zero => intro q st ty p1 _ h; simp [LexLoop] at h
  | succ n ih =>
    intro q st ty p1 hq h
    rw [LexLoop_iter] at h
    cases hi : LexIter q st p0._currentIndex with
    | next q1 st1 =>
      rw [hi] at h
      exact ih q1 st1 ty p1 (LexReach.iter q q1 st st1 hq hi) h
    | ret ty1 p2 =>
      rw [hi] at h
      simp only [Option.some.injEq, Prod.mk.injEq] at h
      rw [h.1, h.2] at hi
      exact ⟨q, st, hq, hi⟩

/-- Claim C20 (scan-position safety): at the head of every iteration of the loop of `Parse`
on an identifier, the scan position is at least the local `start` and at most the length of
the identifier; so it is at the head of every iteration of the loop of `Lex` called there,
where the rewind is executed only at a scan position at least two past `start`; so it is
when `Lex` returns; and each range that `Parse` then passes to `PushWords` lies inside the
identifier. -/
theorem C20_scan_position_safety (identifier : List Nat) (p : IdentifyParser) (start : Nat)
    (h : ParseReach identifier p start) :
    p._source = identifier ∧ start ≤ p._currentIndex ∧
    p._currentIndex ≤ identifier.length ∧
    (∀ q st, LexReach p q st →
      start ≤ q._currentIndex ∧ q._currentIndex ≤ identifier.length ∧
      (st = ParseState.UpperCase → islower q.GetCurrentChar = true →
        q._currentIndex - start ≠ 1 → start + 2 ≤ q._currentIndex)) ∧
    (∀ ty p1, p.Lex = some (ty, p1) →
      start ≤ p1._currentIndex ∧ p1._currentIndex ≤ identifier.length ∧
      (ty = IdentifyType.Ascii →
        start + (p1._currentIndex - start) ≤ identifier.length) ∧
      (ty = IdentifyType.LowerEnd →
        start + (p1._source.length - start) ≤ identifier.length)) := by
  obtain ⟨hsrc, hstart, hidx⟩ := ParseReach_inv h
  have hL : p._source.length = identifier.length := congrArg List.length hsrc
  have h0 : p._currentIndex ≤ p._source.length := by omega
  have hreach : ∀ q st, LexReach p q st →
      start ≤ q._currentIndex ∧ q._currentIndex ≤ identifier.length ∧
      (st = ParseState.UpperCase → islower q.GetCurrentChar = true →
        q._currentIndex - start ≠ 1 → start + 2 ≤ q._currentIndex) := by
    intro q st hq
    obtain ⟨_, _, i3, i4, i5⟩ := LexReach_inv h0 hq
    refine ⟨by omega, by omega, ?_⟩
    intro hst _ hne
    have := i5 (by rw [hst]; decide)
    omega
  refine ⟨hsrc, by omega, hidx, hreach, ?_⟩
  intro ty p1 hlex
  obtain ⟨q1, st1, hq1, hret⟩ := LexLoop_ret p _ p ParseState.Unknown ty p1 LexReach.entry hlex
  obtain ⟨j1, j2, j3⟩ := hreach q1 st1 hq1
  obtain ⟨k1, _, _, _, _⟩ := LexReach_inv h0 hq1
  have hbound : start ≤ p1._currentIndex ∧ p1._currentIndex ≤ identifier.length ∧
      p1._source.length = identifier.length := by
    rw [← hstart] at hret
    rcases LexIter_ret hret with hp | ⟨hp, hst, hlow, hne⟩
    · rw [hp]
      exact ⟨j1, j2, by rw [k1, hL]⟩
    · have := j3 hst hlow hne
      rw [hp]
      exact ⟨by show start ≤ q1._currentIndex - 1; omega,
        by show q1._currentIndex - 1 ≤ identifier.length; omega,
        by show q1._source.length = identifier.length; rw [k1, hL]⟩
  exact ⟨hbound.1, hbound.2.1, fun _ => by omega, fun _ => by omega⟩

theorem C20_scan_position_safety_witness :
    ParseReach (bytes "ABc") ⟨bytes "ABc", 2, []⟩ 2 ∧
    LexIter ⟨bytes "ABc", 2, []⟩ ParseState.UpperCase 0 =
      LexIterResult.ret IdentifyType.Ignore ⟨bytes "ABc", 1, []⟩ ∧
    (∀ q st, LexReach ⟨bytes "ABc", 2, []⟩ q st →
      2 ≤ q._currentIndex ∧ q._currentIndex ≤ (bytes "ABc").length ∧
      (st = ParseState.UpperCase → islower q.GetCurrentChar = true →
        q._currentIndex - 2 ≠ 1 → 2 + 2 ≤ q._currentIndex)) :=
  ⟨ParseReach.iter _ _ _ _ ParseReach.entry (by decide), by decide,
    (C20_scan_position_safety (bytes "ABc") ⟨bytes "ABc", 2, []⟩ 2
      (ParseReach.iter _ _ _ _ ParseReach.entry (by decide))).2.2.2.1⟩

end EmmyLua
